import Mathlib

/-!
Verification development for the punctuation-guessing engine of
`guessUnicodePunctuation.user.js`: the substitution-rule pipeline
(`transform` over `punctuationRules`), the locale resolver
(`punctuationRulesForLanguage` with `languageSpecificOverrides`,
`overrideRuleIndices` and `languageSpecificRules`), and the
markup-preserving rule list (`transformationRulesToPreserveMarkup`
with `btoa`/`atob` encoding of protected spans).

Strings are modelled as `List Char`; each regular expression of the
source is embedded as an explicit scanner (`tryMatchAt`) that, at a
given position (characters before the position in `rev`, reversed, and
the remaining characters in `rest`), either fails or returns the length
of the match together with its capture groups, mirroring the semantics
of the JavaScript pattern including lookbehind/lookahead assertions and
lazy/greedy repetition.  Global `String.prototype.replace` is the
left-to-right non-overlapping scan `scanAux`.
-/

namespace GuessPunct

abbrev Str := List Char

/-- The ASCII apostrophe character `U+0027`. -/
def apo : Char := '\''

/-- ASCII digit test, the JavaScript `\d` class. -/
def isDigitC (c : Char) : Bool := c.isDigit

/-- The JavaScript `\w` class `[A-Za-z0-9_]`. -/
def isWordChar (c : Char) : Bool := c.isAlphanum || c = '_'

/-- Line terminators, which the JavaScript `.` does not match. -/
def isLineTerm (c : Char) : Bool :=
  c = '\n' || c = '\r' || c.toNat = 0x2028 || c.toNat = 0x2029

/-- What the JavaScript `.` matches (any character except line terminators). -/
def dotOk (c : Char) : Bool := !isLineTerm c

/-- The JavaScript `\s` whitespace class. -/
def isJsWhitespace (c : Char) : Bool :=
  c.toNat = 0x9 || c.toNat = 0xA || c.toNat = 0xB || c.toNat = 0xC ||
  c.toNat = 0xD || c.toNat = 0x20 || c.toNat = 0xA0 || c.toNat = 0x1680 ||
  (0x2000 ≤ c.toNat && c.toNat ≤ 0x200A) || c.toNat = 0x2028 ||
  c.toNat = 0x2029 || c.toNat = 0x202F || c.toNat = 0x205F ||
  c.toNat = 0x3000 || c.toNat = 0xFEFF

/-- The Unicode letter class `\p{L}`, restricted to the Basic Multilingual
Plane scripts relevant to this program (ASCII, Latin-1 and extended Latin,
Greek, Cyrillic, Hebrew, Arabic, kana, CJK, Hangul).  Every punctuation
character produced by the rules (curly quotes, dashes, primes, guillemets,
Hebrew geresh/gershayim/maqaf) is correctly classified as a non-letter. -/
def isUnicodeLetter (c : Char) : Bool :=
  c.isAlpha ||
  c.toNat = 0xAA || c.toNat = 0xB5 || c.toNat = 0xBA ||
  (0xC0 ≤ c.toNat && c.toNat ≤ 0xD6) ||
  (0xD8 ≤ c.toNat && c.toNat ≤ 0xF6) ||
  (0xF8 ≤ c.toNat && c.toNat ≤ 0x24F) ||
  (0x370 ≤ c.toNat && c.toNat ≤ 0x373) ||
  (0x376 ≤ c.toNat && c.toNat ≤ 0x377) ||
  (0x37B ≤ c.toNat && c.toNat ≤ 0x37D) ||
  c.toNat = 0x386 ||
  (0x388 ≤ c.toNat && c.toNat ≤ 0x3FF && c.toNat ≠ 0x38B &&
    c.toNat ≠ 0x38D && c.toNat ≠ 0x3A2) ||
  (0x400 ≤ c.toNat && c.toNat ≤ 0x481) ||
  (0x48A ≤ c.toNat && c.toNat ≤ 0x52F) ||
  (0x5D0 ≤ c.toNat && c.toNat ≤ 0x5EA) ||
  (0x621 ≤ c.toNat && c.toNat ≤ 0x64A) ||
  (0x3041 ≤ c.toNat && c.toNat ≤ 0x3096) ||
  (0x30A1 ≤ c.toNat && c.toNat ≤ 0x30FA) ||
  (0x4E00 ≤ c.toNat && c.toNat ≤ 0x9FFF) ||
  (0xAC00 ≤ c.toNat && c.toNat ≤ 0xD7A3)

/-- The class `[^\p{L}\d]` used by the quote rules (with `u` flag). -/
def isLetterOrDigitU (c : Char) : Bool := isUnicodeLetter c || isDigitC c

/-- Boundary test `(?<=[^\p{L}\d]|^)` / `(?=[^\p{L}\d]|$)` on an optional
neighbouring character (`none` = start or end of string). -/
def notLetterDigitB : Option Char → Bool
  | none => true
  | some c => !isLetterOrDigitU c

/-- Boundary test `(?<=\W|^)` / `(?=\W|$)` on an optional neighbouring
character. -/
def notWordB : Option Char → Bool
  | none => true
  | some c => !isWordChar c

/-- Lookbehind/lookahead `\S` on an optional neighbouring character:
a character must exist and must not be whitespace. -/
def nonSpaceB : Option Char → Bool
  | none => false
  | some c => !isJsWhitespace c

/-- Lazy search for the closing delimiter of `q(.+?)q(?=[^\p{L}\d]|$)`:
given the characters after the opening delimiter, returns the length of the
shortest non-empty inner span (consisting of `.`-matchable characters)
followed by `q` whose successor satisfies the boundary lookahead. -/
def seekClose (q : Char) (k : Nat) : Str → Option Nat
  | [] => none
  | c :: cs =>
    if c = q && k ≠ 0 && notLetterDigitB cs.head? then some k
    else if isLineTerm c then none
    else seekClose q (k + 1) cs

/-- Lazy search for `.+?\]`: the length of the shortest non-empty run of
`.`-matchable characters followed by `]`. -/
def seekBracket (k : Nat) : Str → Option Nat
  | [] => none
  | c :: cs =>
    if c = ']' && k ≠ 0 then some k
    else if isLineTerm c then none
    else seekBracket (k + 1) cs

/-- Scanner state machine for the lazy group pair of
`\[(.+?)(\|.+?)?\]`: with `k` characters already committed to the first
group, try (in regex backtracking order) to close the current first group
with a present second group, then with an absent second group, and
otherwise extend the first group.  Returns the first-group length and, when
present, the second-group length (including the `|`). -/
def linkScan (k : Nat) : Str → Option (Nat × Option Nat)
  | [] => none
  | c :: cs =>
    if k ≠ 0 && c = '|' then
      match seekBracket 0 cs with
      | some m => some (k, some (m + 1))
      | none =>
        if isLineTerm c then none else linkScan (k + 1) cs
    else if k ≠ 0 && c = ']' then some (k, none)
    else if isLineTerm c then none
    else linkScan (k + 1) cs

/-- Count of `(-\d+)` repetitions (greedy, as in `\d+(-\d+){2,}`) together
with the total number of characters they consume.  `fuel` bounds the
recursion; each repetition consumes at least two characters. -/
def repsAux : Nat → Str → Nat × Nat
  | 0, _ => (0, 0)
  | _ + 1, [] => (0, 0)
  | fuel + 1, c :: cs =>
    if c = '-' then
      let ds := cs.takeWhile isDigitC
      if ds.isEmpty then (0, 0)
      else
        let (n, len) := repsAux fuel (cs.drop ds.length)
        (n + 1, len + 1 + ds.length)
    else (0, 0)

/-- Gregorian leap-year test, as used by `Date.parse` for ISO strings. -/
def leapYear (y : Nat) : Bool := y % 4 = 0 && (y % 100 ≠ 0 || y % 400 = 0)

/-- Days in a month of the proleptic Gregorian calendar. -/
def daysInMonth (y m : Nat) : Nat :=
  if m = 2 then (if leapYear y then 29 else 28)
  else if m = 4 || m = 6 || m = 9 || m = 11 then 30
  else 31

/-- Numeric value of a digit string. -/
def digitsToNat (ds : Str) : Nat :=
  ds.foldl (fun n c => n * 10 + (c.toNat - 48)) 0

/-- `!Number.isNaN(Date.parse(potentialDate))` for a string of the shape
`YYYY-MM` or `YYYY-MM-DD` (the only shapes the date rule can match): the
ECMAScript date-time string format accepts it exactly when the month is in
1..12 and, if present, the day is in range for that month and year. -/
def dateParseValid (matched : Str) : Bool :=
  let y := digitsToNat (matched.take 4)
  let mo := digitsToNat ((matched.drop 5).take 2)
  let dayOk :=
    if matched.length = 10 then
      let d := digitsToNat ((matched.drop 8).take 2)
      1 ≤ d && d ≤ daysInMonth y mo
    else true
  1 ≤ mo && mo ≤ 12 && dayOk

/-- The Base64 alphabet in order. -/
def b64chars : Str :=
  "ABCDEFGHIJKLMNOPQRSTUVWXYZabcdefghijklmnopqrstuvwxyz0123456789+/".data

/-- Base64 digit for a 6-bit value. -/
def encB64 (n : Nat) : Char := b64chars.getD n 'A'

/-- Index of a Base64 digit in the alphabet. -/
def decB64 (c : Char) : Nat := b64chars.findIdx (fun d => d = c)

/-- Membership in the Base64 alphabet proper (without padding). -/
def isB64Digit (c : Char) : Bool := b64chars.contains c

/-- The character class `[A-Za-z0-9+/=]` of the decoding rules. -/
def isB64Class (c : Char) : Bool := isB64Digit c || c = '='

/-- Base64 encoding of a byte list, processed in chunks of three bytes with
`=` padding, as `btoa` produces. -/
def b64encodeBytes : List Nat → Str
  | [] => []
  | [b1] => [encB64 (b1 / 4), encB64 (b1 % 4 * 16), '=', '=']
  | [b1, b2] =>
    [encB64 (b1 / 4), encB64 (b1 % 4 * 16 + b2 / 16), encB64 (b2 % 16 * 4), '=']
  | b1 :: b2 :: b3 :: rest =>
    encB64 (b1 / 4) :: encB64 (b1 % 4 * 16 + b2 / 16) ::
    encB64 (b2 % 16 * 4 + b3 / 64) :: encB64 (b3 % 64) :: b64encodeBytes rest

/-- Base64 decoding of 6-bit values, processed in chunks of four, with the
partial final chunks produced by stripped padding (leftover bits are
discarded, as in the WHATWG forgiving-base64 decoder). -/
def b64decodeVals : List Nat → List Nat
  | v1 :: v2 :: v3 :: v4 :: rest =>
    (v1 * 4 + v2 / 16) :: (v2 % 16 * 16 + v3 / 4) :: (v3 % 4 * 64 + v4) ::
    b64decodeVals rest
  | [v1, v2] => [v1 * 4 + v2 / 16]
  | [v1, v2, v3] => [v1 * 4 + v2 / 16, v2 % 16 * 16 + v3 / 4]
  | _ => []

/-- ASCII whitespace stripped by the forgiving-base64 decoder. -/
def isAsciiWs (c : Char) : Bool :=
  c = ' ' || c = '\t' || c = '\n' || c.toNat = 0xC || c = '\r'

/-- Remove up to two trailing `=` padding characters. -/
def dropTrailingEq (l : Str) : Str :=
  if l.reverse.take 2 = ['=', '='] then (l.reverse.drop 2).reverse
  else if l.reverse.take 1 = ['='] then (l.reverse.drop 1).reverse
  else l

/-- `window.btoa`: fails (throws `InvalidCharacterError`) when the string
contains a character above `U+00FF`, otherwise Base64-encodes the
code-point bytes. -/
def btoa (s : Str) : Except Unit Str :=
  if s.all (fun c => c.toNat ≤ 255) then
    .ok (b64encodeBytes (s.map Char.toNat))
  else .error ()

/-- `window.atob`: the WHATWG forgiving-base64 decoder.  Strips ASCII
whitespace, removes up to two trailing padding characters when the length
is a multiple of four, fails when the remaining length is `1 mod 4` or a
character is outside the alphabet, and otherwise decodes (discarding
leftover bits). -/
def atob (s : Str) : Except Unit Str :=
  let t := s.filter (fun c => !isAsciiWs c)
  let t := if t.length % 4 = 0 then dropTrailingEq t else t
  if t.length % 4 = 1 then .error ()
  else if t.all isB64Digit then .ok ((b64decodeVals (t.map decB64)).map Char.ofNat)
  else .error ()

/-- One constructor per distinct regular expression appearing as the search
value of a substitution rule in the source. -/
inductive Matcher where
  | doubleQuotedText   -- `(?<=[^\p{L}\d]|^)"(.+?)"(?=[^\p{L}\d]|$)` (u g)
  | nIdiom             -- `(?<=\W|^)'(n)'(?=\W|$)` (i g)
  | singleQuotedText   -- `(?<=[^\p{L}\d]|^)'(.+?)'(?=[^\p{L}\d]|$)` (u g)
  | doublePrimes       -- `(\d+)"` (g)
  | singlePrimes       -- `(\d+)'(\d+)` (g)
  | apostrophe         -- `'` (g)
  | ellipsis           -- `(?<!\.)\.{3}(?!\.)` (g)
  | spacedDash         -- ` - ` (g)
  | isoDate            -- `\d{4}-\d{2}(?:-\d{2})?(?=\W|$)` (g)
  | groupedDigits      -- `\d+(-\d+){2,}` (g)
  | rangeDash          -- `(\d+)-(\d+)` (g)
  | residualHyphen     -- `(?<=\S)-(?=\S)` (g)
  | deCompound         -- `(\w+)-(\s)|(\s)-(\w+)` (g)
  | jaBracketDash      -- `(?<=[^\p{L}\d]|^)-(.+?)-(?=[^\p{L}\d]|$)` (u g)
  | heAcronym          -- `(?<=\S)"(?=\S)` (g)
  | labeledLinkEnc     -- `\[(.+?)(\|.+?)?\]` (g)
  | urlEnc             -- `(?<=\/\/)(\S+)` (g)
  | boldEnc            -- `'''` (g)
  | italicEnc          -- `''` (g)
  | boldDec            -- `<b>` (g)
  | italicDec          -- `<i>` (g)
  | urlDec             -- `(?<=\/\/)([A-Za-z0-9+/=]+)` (g)
  | labeledLinkDec     -- `\[([A-Za-z0-9+/=]+)(\|.+?)?\]` (g)
deriving DecidableEq, Repr

/-- The replace value of a substitution rule: either a JavaScript
replacement template string (with `$1`…`$9` group references), or one of
the replacer functions appearing in the source. -/
inductive Replacer where
  | str (template : String)
  | dateFn       -- skip unparseable dates, else replaceAll hyphen with U+2010
  | groupFn      -- replaceAll hyphen with figure dash U+2012
  | linkEncFn    -- (_match, url, label = '') => `[${btoa(url)}${label}]`
  | urlEncFn     -- (_match, path) => btoa(path)
  | urlDecFn     -- (_match, path) => atob(path)
  | linkDecFn    -- (_match, url, label = '') => `[${atob(url)}${label}]`
deriving DecidableEq, Repr

/-- A substitution rule: a pair of search value and replace value. -/
structure Rule where
  searchValue : Matcher
  replaceValue : Replacer
deriving DecidableEq, Repr

/-- Attempt to match a regular expression at one position of the string:
`rev` holds the characters before the position (nearest first, for
lookbehind) and `rest` the characters from the position on.  On success,
returns the length of the matched substring (a prefix of `rest`) and the
list of capture groups (`none` for an unmatched optional group). -/
def tryMatchAt (m : Matcher) (rev rest : Str) : Option (Nat × List (Option Str)) :=
  match m with
  | .doubleQuotedText =>
    match rest with
    | '"' :: rest1 =>
      if notLetterDigitB rev.head? then
        match seekClose '"' 0 rest1 with
        | some k => some (k + 2, [some (rest1.take k)])
        | none => none
      else none
    | _ => none
  | .nIdiom =>
    match rest with
    | '\'' :: x :: '\'' :: after =>
      if (x = 'n' || x = 'N') && notWordB rev.head? && notWordB after.head? then
        some (3, [some [x]])
      else none
    | _ => none
  | .singleQuotedText =>
    match rest with
    | '\'' :: rest1 =>
      if notLetterDigitB rev.head? then
        match seekClose '\'' 0 rest1 with
        | some k => some (k + 2, [some (rest1.take k)])
        | none => none
      else none
    | _ => none
  | .doublePrimes =>
    let ds := rest.takeWhile isDigitC
    if ds.isEmpty then none
    else
      match rest.drop ds.length with
      | '"' :: _ => some (ds.length + 1, [some ds])
      | _ => none
  | .singlePrimes =>
    let d1 := rest.takeWhile isDigitC
    if d1.isEmpty then none
    else
      match rest.drop d1.length with
      | '\'' :: r2 =>
        let d2 := r2.takeWhile isDigitC
        if d2.isEmpty then none
        else some (d1.length + 1 + d2.length, [some d1, some d2])
      | _ => none
  | .apostrophe =>
    match rest with
    | '\'' :: _ => some (1, [])
    | _ => none
  | .ellipsis =>
    match rest with
    | '.' :: '.' :: '.' :: after =>
      if rev.head? ≠ some '.' && after.head? ≠ some '.' then some (3, [])
      else none
    | _ => none
  | .spacedDash =>
    match rest with
    | ' ' :: '-' :: ' ' :: _ => some (3, [])
    | _ => none
  | .isoDate =>
    match rest with
    | y1 :: y2 :: y3 :: y4 :: '-' :: m1 :: m2 :: r =>
      if isDigitC y1 && isDigitC y2 && isDigitC y3 && isDigitC y4 &&
         isDigitC m1 && isDigitC m2 then
        match r with
        | '-' :: d1 :: d2 :: r2 =>
          if isDigitC d1 && isDigitC d2 && notWordB r2.head? then some (10, [])
          else if notWordB r.head? then some (7, [])
          else none
        | _ => if notWordB r.head? then some (7, []) else none
      else none
    | _ => none
  | .groupedDigits =>
    let d0 := rest.takeWhile isDigitC
    if d0.isEmpty then none
    else
      let (n, len) := repsAux rest.length (rest.drop d0.length)
      if 2 ≤ n then some (d0.length + len, []) else none
  | .rangeDash =>
    let d1 := rest.takeWhile isDigitC
    if d1.isEmpty then none
    else
      match rest.drop d1.length with
      | '-' :: r2 =>
        let d2 := r2.takeWhile isDigitC
        if d2.isEmpty then none
        else some (d1.length + 1 + d2.length, [some d1, some d2])
      | _ => none
  | .residualHyphen =>
    match rest with
    | '-' :: after =>
      if nonSpaceB rev.head? && nonSpaceB after.head? then some (1, [])
      else none
    | _ => none
  | .deCompound =>
    let w1 := rest.takeWhile isWordChar
    match if w1.isEmpty then none else
      match rest.drop w1.length with
      | '-' :: s :: _ =>
        if isJsWhitespace s then some (w1.length + 2, [some w1, some [s], none, none])
        else none
      | _ => none
    with
    | some res => some res
    | none =>
      match rest with
      | s :: '-' :: r2 =>
        let w2 := r2.takeWhile isWordChar
        if isJsWhitespace s && !w2.isEmpty then
          some (2 + w2.length, [none, none, some [s], some w2])
        else none
      | _ => none
  | .jaBracketDash =>
    match rest with
    | '-' :: rest1 =>
      if notLetterDigitB rev.head? then
        match seekClose '-' 0 rest1 with
        | some k => some (k + 2, [some (rest1.take k)])
        | none => none
      else none
    | _ => none
  | .heAcronym =>
    match rest with
    | '"' :: after =>
      if nonSpaceB rev.head? && nonSpaceB after.head? then some (1, [])
      else none
    | _ => none
  | .labeledLinkEnc =>
    match rest with
    | '[' :: r =>
      match linkScan 0 r with
      | some (k, some g2) => some (1 + k + g2 + 1, [some (r.take k), some ((r.drop k).take g2)])
      | some (k, none) => some (1 + k + 1, [some (r.take k), none])
      | none => none
    | _ => none
  | .urlEnc =>
    match rev with
    | '/' :: '/' :: _ =>
      let sp := rest.takeWhile (fun c => !isJsWhitespace c)
      if sp.isEmpty then none else some (sp.length, [some sp])
    | _ => none
  | .boldEnc =>
    match rest with
    | '\'' :: '\'' :: '\'' :: _ => some (3, [])
    | _ => none
  | .italicEnc =>
    match rest with
    | '\'' :: '\'' :: _ => some (2, [])
    | _ => none
  | .boldDec =>
    match rest with
    | '<' :: 'b' :: '>' :: _ => some (3, [])
    | _ => none
  | .italicDec =>
    match rest with
    | '<' :: 'i' :: '>' :: _ => some (3, [])
    | _ => none
  | .urlDec =>
    match rev with
    | '/' :: '/' :: _ =>
      let sp := rest.takeWhile isB64Class
      if sp.isEmpty then none else some (sp.length, [some sp])
    | _ => none
  | .labeledLinkDec =>
    match rest with
    | '[' :: r =>
      let run := r.takeWhile isB64Class
      if run.isEmpty then none
      else
        match r.drop run.length with
        | '|' :: cs =>
          match seekBracket 0 cs with
          | some mj => some (1 + run.length + 1 + mj + 1,
              [some run, some ('|' :: cs.take mj)])
          | none => none
        | ']' :: _ => some (run.length + 2, [some run, none])
        | _ => none
    | _ => none

/-- Expansion of a JavaScript replacement template: `$$` is a literal `$`,
`$n` (`n` = 1..9, within the group count) inserts capture group `n` (empty
when the group did not participate), anything else is literal. -/
def expandTemplate (t : Str) (gs : List (Option Str)) : Str :=
  match t with
  | [] => []
  | '$' :: c :: rest =>
    if c = '$' then '$' :: expandTemplate rest gs
    else if c.isDigit && c ≠ '0' then
      match gs.get? (c.toNat - 49) with
      | some g => g.getD [] ++ expandTemplate rest gs
      | none => '$' :: c :: expandTemplate rest gs
    else '$' :: c :: expandTemplate rest gs
  | c :: rest => c :: expandTemplate rest gs

/-- Build the replacement text for one match.  String replace values are
template-expanded; function replace values mirror the arrow functions of
the source (failures of `btoa`/`atob` propagate as thrown exceptions). -/
def applyReplacer (r : Replacer) (matched : Str) (gs : List (Option Str)) :
    Except Unit Str :=
  match r with
  | .str t => .ok (expandTemplate t.data gs)
  | .dateFn =>
    .ok (if dateParseValid matched then
      matched.map (fun c => if c = '-' then '‐' else c) else matched)
  | .groupFn => .ok (matched.map (fun c => if c = '-' then '‒' else c))
  | .linkEncFn =>
    match gs with
    | some url :: gtail =>
      match btoa url with
      | .ok e => .ok ('[' :: (e ++ ((gtail.getD 0 none).getD [] ++ [']'])))
      | .error e => .error e
    | _ => .error ()
  | .urlEncFn =>
    match gs with
    | some p :: _ => btoa p
    | _ => .error ()
  | .urlDecFn =>
    match gs with
    | some p :: _ => atob p
    | _ => .error ()
  | .linkDecFn =>
    match gs with
    | some url :: gtail =>
      match atob url with
      | .ok d => .ok ('[' :: (d ++ ((gtail.getD 0 none).getD [] ++ [']'])))
      | .error e => .error e
    | _ => .error ()

/-- Global (all non-overlapping matches, left to right) find-and-replace:
at each position, if the pattern matches, emit the replacement and resume
after the matched substring, otherwise keep the character and advance by
one.  Matching is performed against the original string, as
`String.prototype.replace` does.  `fuel` bounds the recursion; one unit is
spent per step and every match consumes at least one character. -/
def scanAux (m : Matcher) (r : Replacer) : Nat → Str → Str → Except Unit Str
  | 0, _, rest => .ok rest
  | fuel + 1, rev, rest =>
    match rest with
    | [] => .ok []
    | c :: cs =>
      match tryMatchAt m rev rest with
      | some (len, gs) =>
        if len = 0 then
          match scanAux m r fuel (c :: rev) cs with
          | .ok t => .ok (c :: t)
          | .error e => .error e
        else
          match applyReplacer r (rest.take len) gs with
          | .error e => .error e
          | .ok rep =>
            match scanAux m r fuel ((rest.take len).reverse ++ rev) (rest.drop len) with
            | .ok t => .ok (rep ++ t)
            | .error e => .error e
      | none =>
        match scanAux m r fuel (c :: rev) cs with
        | .ok t => .ok (c :: t)
        | .error e => .error e

/-- `value.replace(searchValue, replaceValue)` for one rule. -/
def applyRule (rule : Rule) (s : Str) : Except Unit Str :=
  scanAux rule.searchValue rule.replaceValue s.length [] s

/-- Transforms the given value using the given substitution rules, applying
each rule in sequence to the string produced by all previous rules.  An
exception thrown by a replacer function aborts the whole transformation. -/
def transform (value : String) (substitutionRules : List Rule) : Except Unit String :=
  match substitutionRules with
  | [] => .ok value
  | rule :: rules =>
    match applyRule rule value.data with
    | .ok l => transform (String.mk l) rules
    | .error e => .error e

/-- Default punctuation rules, in source order. -/
def punctuationRules : List Rule :=
  [ ⟨.doubleQuotedText, .str "“$1”"⟩,
    ⟨.nIdiom, .str "’$1’"⟩,
    ⟨.singleQuotedText, .str "‘$1’"⟩,
    ⟨.doublePrimes, .str "$1″"⟩,
    ⟨.singlePrimes, .str "$1′$2"⟩,
    ⟨.apostrophe, .str "’"⟩,
    ⟨.ellipsis, .str "…"⟩,
    ⟨.spacedDash, .str " – "⟩,
    ⟨.isoDate, .dateFn⟩,
    ⟨.groupedDigits, .groupFn⟩,
    ⟨.rangeDash, .str "$1–$2"⟩,
    ⟨.residualHyphen, .str "‐"⟩ ]

/-- Language-specific RegEx replace values for overridable rules. -/
def languageSpecificOverrides (language : Option String) : Option (List String) :=
  match language with
  | none => none
  | some l =>
    if l = "en" then some ["“$1”", "‘$1’"]
    else if l = "fr" then some ["« $1 »", "‹ $1 ›"]
    else if l = "de" then some ["„$1“", "‚$1‘"]
    else if l = "he" then some ["”$1”", "’$1’", "׳", "־"]
    else none

/-- Indices of the overridable rules (quotes, apostrophe and hyphen) in
`punctuationRules`. -/
def overrideRuleIndices : List Nat := [0, 2, 5, 11]

/-- Additional punctuation rules for certain languages, appended to the
default rules. -/
def languageSpecificRules (language : Option String) : Option (List Rule) :=
  match language with
  | none => none
  | some l =>
    if l = "de" then some [⟨.deCompound, .str "$1$3‐$2$4"⟩]
    else if l = "ja" then some [⟨.jaBracketDash, .str "–$1–"⟩]
    else if l = "he" then some [⟨.heAcronym, .str "״"⟩]
    else none

/-- Overwrite the replace value of the rule at one position. -/
def setReplaceValue (rules : List Rule) (i : Nat) (v : String) : List Rule :=
  rules.enum.map (fun p => if p.1 = i then ⟨p.2.searchValue, .str v⟩ else p.2)

/-- Overwrite the replace values of the overridable rules with the
language-specific values, by position in `overrideRuleIndices`. -/
def applyOverrides (rules : List Rule) (values : List String) : List Rule :=
  values.enum.foldl
    (fun rs p =>
      match overrideRuleIndices.get? p.1 with
      | some ruleIndex => setReplaceValue rs ruleIndex p.2
      | none => rs)
    rules

/-- Creates language-specific punctuation guessing substitution rules:
the default rules with the overridable replace values patched for the
language (when it has an entry), followed by the language-specific extra
rules (when they exist). -/
def punctuationRulesForLanguage (language : Option String) : List Rule :=
  let rules := punctuationRules
  let rules :=
    match languageSpecificOverrides language with
    | some values => applyOverrides rules values
    | none => rules
  match languageSpecificRules language with
  | some extra => rules ++ extra
  | none => rules

/-- Rules which preserve apostrophe-based markup and URLs by temporarily
changing them to characters untouched by the transformation rules, in
source order: Base64-encode link targets and URLs, swap bold/italic
markers for placeholder tags, run the punctuation rules, then restore. -/
def transformationRulesToPreserveMarkup : List Rule :=
  [ ⟨.labeledLinkEnc, .linkEncFn⟩,
    ⟨.urlEnc, .urlEncFn⟩,
    ⟨.boldEnc, .str "<b>"⟩,
    ⟨.italicEnc, .str "<i>"⟩ ]
  ++ punctuationRules ++
  [ ⟨.boldDec, .str (String.mk ['\'', '\'', '\''])⟩,
    ⟨.italicDec, .str (String.mk ['\'', '\''])⟩,
    ⟨.urlDec, .urlDecFn⟩,
    ⟨.labeledLinkDec, .linkDecFn⟩ ]

/-! ### Generic lemmas about the replace scan -/

/-- If every match of `m` would contain the character `trig`, then on a
string without `trig` the global replace is the identity. -/
theorem scanAux_id_of_trigger (m : Matcher) (r : Replacer) (trig : Char)
    (H : ∀ rev rest len gs, tryMatchAt m rev rest = some (len, gs) → trig ∈ rest.take len) :
    ∀ fuel rev rest, trig ∉ rest → scanAux m r fuel rev rest = .ok rest := by
  intro fuel
  induction fuel with
  | zero => intro rev rest _; rfl
  | succ n ih =>
    intro rev rest h
    match rest with
    | [] => rfl
    | c :: cs =>
      have hcs : trig ∉ cs := fun hx => h (List.mem_cons_of_mem _ hx)
      cases htm : tryMatchAt m rev (c :: cs) with
      | some p =>
        exact absurd (List.mem_of_mem_take (H rev (c :: cs) p.1 p.2 (by rw [htm]))) h
      | none =>
        simp only [scanAux, htm]
        rw [ih (c :: rev) cs hcs]

/-- If every match of `m` succeeds only after a given decomposition-aware
test, and the replacement's characters all come from the matched substring
or a fixed set `F`, then every character of the output comes from the input
or from `F`. -/
theorem scanAux_mem_of_ok (m : Matcher) (r : Replacer) (F : Str)
    (H : ∀ rev rest len gs out, tryMatchAt m rev rest = some (len, gs) →
      applyReplacer r (rest.take len) gs = .ok out → ∀ c ∈ out, c ∈ rest ∨ c ∈ F) :
    ∀ fuel rev rest out, scanAux m r fuel rev rest = .ok out →
      ∀ c ∈ out, c ∈ rest ∨ c ∈ F := by
  intro fuel
  induction fuel with
  | zero =>
    intro rev rest out h c hc
    injection h with h
    subst h
    exact Or.inl hc
  | succ n ih =>
    intro rev rest out h c hc
    match rest with
    | [] =>
      injection h with h
      subst h
      exact absurd hc (List.not_mem_nil c)
    | b :: cs =>
      simp only [scanAux] at h
      split at h
      next len gs htm =>
        split at h
        · -- zero-length match: keep the character and continue
          split at h
          next t hrec =>
            injection h with h
            subst h
            rcases List.mem_cons.mp hc with hcb | hct
            · exact Or.inl (hcb ▸ List.mem_cons_self b cs)
            · rcases ih (b :: rev) cs t hrec c hct with hin | hF
              · exact Or.inl (List.mem_cons_of_mem _ hin)
              · exact Or.inr hF
          next => exact absurd h (by simp)
        · -- real match: replacement followed by the scan of the remainder
          split at h
          next => exact absurd h (by simp)
          next rep hrep =>
            split at h
            next t hrec =>
              injection h with h
              subst h
              rcases List.mem_append.mp hc with hcr | hct
              · exact H rev (b :: cs) len gs rep htm hrep c hcr
              · rcases ih _ _ t hrec c hct with hin | hF
                · exact Or.inl (List.mem_of_mem_drop hin)
                · exact Or.inr hF
            next => exact absurd h (by simp)
      next htm =>
        split at h
        next t hrec =>
          injection h with h
          subst h
          rcases List.mem_cons.mp hc with hcb | hct
          · exact Or.inl (hcb ▸ List.mem_cons_self b cs)
          · rcases ih (b :: rev) cs t hrec c hct with hin | hF
            · exact Or.inl (List.mem_cons_of_mem _ hin)
            · exact Or.inr hF
        next => exact absurd h (by simp)

/-! ### Per-matcher facts: every match contains its trigger character -/

theorem trigger_doubleQuotedText (rev rest : Str) (len : Nat) (gs : List (Option Str))
    (h : tryMatchAt .doubleQuotedText rev rest = some (len, gs)) : '"' ∈ rest.take len := by
  simp only [tryMatchAt] at h
  split at h
  next rest1 =>
    split at h
    · split at h
      next k hk =>
        injection h with h'
        injection h' with h1 h2
        subst h1
        simp [List.take]
      next => exact absurd h (by simp)
    · exact absurd h (by simp)
  next => exact absurd h (by simp)

theorem trigger_singleQuotedText (rev rest : Str) (len : Nat) (gs : List (Option Str))
    (h : tryMatchAt .singleQuotedText rev rest = some (len, gs)) : '\'' ∈ rest.take len := by
  simp only [tryMatchAt] at h
  split at h
  next rest1 =>
    split at h
    · split at h
      next k hk =>
        injection h with h'
        injection h' with h1 h2
        subst h1
        simp [List.take]
      next => exact absurd h (by simp)
    · exact absurd h (by simp)
  next => exact absurd h (by simp)

theorem trigger_nIdiom (rev rest : Str) (len : Nat) (gs : List (Option Str))
    (h : tryMatchAt .nIdiom rev rest = some (len, gs)) : '\'' ∈ rest.take len := by
  simp only [tryMatchAt] at h
  split at h
  next x after =>
    split at h
    · injection h with h'
      injection h' with h1 h2
      subst h1
      simp [List.take]
    · exact absurd h (by simp)
  next => exact absurd h (by simp)

theorem trigger_apostrophe (rev rest : Str) (len : Nat) (gs : List (Option Str))
    (h : tryMatchAt .apostrophe rev rest = some (len, gs)) : '\'' ∈ rest.take len := by
  simp only [tryMatchAt] at h
  split at h
  next =>
    injection h with h'
    injection h' with h1 h2
    subst h1
    simp [List.take]
  next => exact absurd h (by simp)

theorem trigger_spacedDash (rev rest : Str) (len : Nat) (gs : List (Option Str))
    (h : tryMatchAt .spacedDash rev rest = some (len, gs)) : '-' ∈ rest.take len := by
  simp only [tryMatchAt] at h
  split at h
  next =>
    injection h with h'
    injection h' with h1 h2
    subst h1
    simp [List.take]
  next => exact absurd h (by simp)

theorem trigger_residualHyphen (rev rest : Str) (len : Nat) (gs : List (Option Str))
    (h : tryMatchAt .residualHyphen rev rest = some (len, gs)) : '-' ∈ rest.take len := by
  simp only [tryMatchAt] at h
  split at h
  next after =>
    split at h
    · injection h with h'
      injection h' with h1 h2
      subst h1
      simp [List.take]
    · exact absurd h (by simp)
  next => exact absurd h (by simp)

theorem trigger_heAcronym (rev rest : Str) (len : Nat) (gs : List (Option Str))
    (h : tryMatchAt .heAcronym rev rest = some (len, gs)) : '"' ∈ rest.take len := by
  simp only [tryMatchAt] at h
  split at h
  next after =>
    split at h
    · injection h with h'
      injection h' with h1 h2
      subst h1
      simp [List.take]
    · exact absurd h (by simp)
  next => exact absurd h (by simp)

theorem trigger_ellipsisDot (rev rest : Str) (len : Nat) (gs : List (Option Str))
    (h : tryMatchAt .ellipsis rev rest = some (len, gs)) : '.' ∈ rest.take len := by
  simp only [tryMatchAt] at h
  split at h
  next after =>
    split at h
    · injection h with h'
      injection h' with h1 h2
      subst h1
      simp [List.take]
    · exact absurd h (by simp)
  next => exact absurd h (by simp)

theorem trigger_isoDate (rev rest : Str) (len : Nat) (gs : List (Option Str))
    (h : tryMatchAt .isoDate rev rest = some (len, gs)) : '-' ∈ rest.take len := by
  simp only [tryMatchAt] at h
  split at h
  next y1 y2 y3 y4 m1 m2 r9 =>
    split at h
    · split at h
      next d1 d2 r2 =>
        split at h
        · injection h with h'
          injection h' with h1 h2
          subst h1
          simp [List.take]
        · split at h
          · injection h with h'
            injection h' with h1 h2
            subst h1
            simp [List.take]
          · exact absurd h (by simp)
      next =>
        split at h
        · injection h with h'
          injection h' with h1 h2
          subst h1
          simp [List.take]
        · exact absurd h (by simp)
    · exact absurd h (by simp)
  next => exact absurd h (by simp)

/-- A match of the quote/prime pattern `(\d+)"` has its `"` at position
`ds.length`, inside the matched prefix. -/
theorem trigger_doublePrimes (rev rest : Str) (len : Nat) (gs : List (Option Str))
    (h : tryMatchAt .doublePrimes rev rest = some (len, gs)) : '"' ∈ rest.take len := by
  simp only [tryMatchAt] at h
  split at h
  · exact absurd h (by simp)
  · split at h
    next tail heq =>
      injection h with h'
      injection h' with h1 h2
      subst h1
      rw [List.take_add]
      refine List.mem_append.mpr (Or.inr ?_)
      rw [heq]
      simp [List.take]
    next => exact absurd h (by simp)

theorem trigger_singlePrimes (rev rest : Str) (len : Nat) (gs : List (Option Str))
    (h : tryMatchAt .singlePrimes rev rest = some (len, gs)) : '\'' ∈ rest.take len := by
  simp only [tryMatchAt] at h
  split at h
  · exact absurd h (by simp)
  · split at h
    next r2 heq =>
      split at h
      · exact absurd h (by simp)
      · injection h with h'
        injection h' with h1 h2
        subst h1
        rw [show (rest.takeWhile isDigitC).length + 1 +
            (r2.takeWhile isDigitC).length =
            (rest.takeWhile isDigitC).length + (1 +
            (r2.takeWhile isDigitC).length) from by omega, List.take_add]
        refine List.mem_append.mpr (Or.inr ?_)
        rw [heq, Nat.add_comm 1]
        simp [List.take]
    next => exact absurd h (by simp)

theorem trigger_rangeDash (rev rest : Str) (len : Nat) (gs : List (Option Str))
    (h : tryMatchAt .rangeDash rev rest = some (len, gs)) : '-' ∈ rest.take len := by
  simp only [tryMatchAt] at h
  split at h
  · exact absurd h (by simp)
  · split at h
    next r2 heq =>
      split at h
      · exact absurd h (by simp)
      · injection h with h'
        injection h' with h1 h2
        subst h1
        rw [show (rest.takeWhile isDigitC).length + 1 +
            (r2.takeWhile isDigitC).length =
            (rest.takeWhile isDigitC).length + (1 +
            (r2.takeWhile isDigitC).length) from by omega, List.take_add]
        refine List.mem_append.mpr (Or.inr ?_)
        rw [heq, Nat.add_comm 1]
        simp [List.take]
    next => exact absurd h (by simp)

/-- Every sequence of `(-\d+)` repetitions found by `repsAux` starts with a
hyphen when at least one repetition was found. -/
theorem repsAux_mem (fuel : Nat) :
    ∀ l n len, repsAux fuel l = (n, len) → 1 ≤ n → '-' ∈ l.take len := by
  induction fuel with
  | zero =>
    intro l n len h hn
    injection h with h1 h2
    omega
  | succ k ih =>
    intro l n len h hn
    match l with
    | [] =>
      injection h with h1 h2
      omega
    | c :: cs =>
      simp only [repsAux] at h
      split at h
      · split at h
        · injection h with h1 h2
          omega
        · injection h with h1 h2
          subst h2
          have : c = '-' := by assumption
          subst this
          have : (repsAux k (cs.drop (cs.takeWhile isDigitC).length)).2 + 1 +
              (cs.takeWhile isDigitC).length = Nat.succ ((repsAux k
              (cs.drop (cs.takeWhile isDigitC).length)).2 +
              (cs.takeWhile isDigitC).length) := by omega
          rw [this]
          simp [List.take]
      · injection h with h1 h2
        omega

theorem trigger_groupedDigits (rev rest : Str) (len : Nat) (gs : List (Option Str))
    (h : tryMatchAt .groupedDigits rev rest = some (len, gs)) : '-' ∈ rest.take len := by
  simp only [tryMatchAt] at h
  split at h
  · exact absurd h (by simp)
  · split at h
    next hrep =>
      injection h with h'
      injection h' with h1 h2
      subst h1
      rw [List.take_add]
      refine List.mem_append.mpr (Or.inr ?_)
      exact repsAux_mem rest.length (rest.drop (rest.takeWhile isDigitC).length) _ _ rfl
        (by omega)
    next => exact absurd h (by simp)

/-- Each `(-\d+)` repetition contributes a hyphen: the number of
repetitions bounds the hyphen count of the consumed prefix. -/
theorem repsAux_count (fuel : Nat) :
    ∀ l n len, repsAux fuel l = (n, len) → n ≤ (l.take len).count '-' := by
  induction fuel with
  | zero =>
    intro l n len h
    injection h with h1 h2
    omega
  | succ k ih =>
    intro l n len h
    match l with
    | [] =>
      injection h with h1 h2
      omega
    | c :: cs =>
      simp only [repsAux] at h
      split at h
      · split at h
        · injection h with h1 h2
          omega
        · injection h with h1 h2
          subst h2
          have hc : c = '-' := by assumption
          subst hc
          have harith : (repsAux k (cs.drop (cs.takeWhile isDigitC).length)).2 + 1 +
              (cs.takeWhile isDigitC).length = Nat.succ ((cs.takeWhile isDigitC).length +
              (repsAux k (cs.drop (cs.takeWhile isDigitC).length)).2) := by omega
          rw [harith]
          simp only [List.take_succ_cons, List.count_cons_self, List.take_add]
          have hsub : ((cs.take (cs.takeWhile isDigitC).length)).count '-' +
              (((cs.drop (cs.takeWhile isDigitC).length).take
                (repsAux k (cs.drop (cs.takeWhile isDigitC).length)).2)).count '-' + 1 =
              ((cs.take (cs.takeWhile isDigitC).length) ++
               ((cs.drop (cs.takeWhile isDigitC).length).take
                (repsAux k (cs.drop (cs.takeWhile isDigitC).length)).2)).count '-' + 1 := by
            rw [List.count_append]
          have hn : n - 1 ≤ ((cs.drop (cs.takeWhile isDigitC).length).take
              (repsAux k (cs.drop (cs.takeWhile isDigitC).length)).2).count '-' := by
            have := ih (cs.drop (cs.takeWhile isDigitC).length)
              (repsAux k (cs.drop (cs.takeWhile isDigitC).length)).1
              (repsAux k (cs.drop (cs.takeWhile isDigitC).length)).2 rfl
            have hn1 : (repsAux k (cs.drop (cs.takeWhile isDigitC).length)).1 = n - 1 := by
              omega
            rw [hn1] at this
            exact this
          rw [List.count_append]
          omega
      · injection h with h1 h2
        omega

/-- A match of `\d+(-\d+){2,}` contains at least two hyphens. -/
theorem groupedDigits_count (rev rest : Str) (len : Nat) (gs : List (Option Str))
    (h : tryMatchAt .groupedDigits rev rest = some (len, gs)) :
    2 ≤ (rest.take len).count '-' := by
  simp only [tryMatchAt] at h
  split at h
  · exact absurd h (by simp)
  · split at h
    next hrep =>
      injection h with h'
      injection h' with h1 h2
      subst h1
      rw [List.take_add, List.count_append]
      have := repsAux_count rest.length (rest.drop (rest.takeWhile isDigitC).length)
        _ _ rfl
      omega
    next => exact absurd h (by simp)

/-- On a string with fewer than two hyphens, the grouped-digits rule is the
identity. -/
theorem scanAux_groupedDigits_id (r : Replacer) :
    ∀ fuel rev rest, (rest.count '-') < 2 →
      scanAux .groupedDigits r fuel rev rest = .ok rest := by
  intro fuel
  induction fuel with
  | zero => intro rev rest _; rfl
  | succ n ih =>
    intro rev rest h
    match rest with
    | [] => rfl
    | c :: cs =>
      have hcs : cs.count '-' < 2 :=
        lt_of_le_of_lt ((List.sublist_cons_self c cs).count_le '-') h
      cases htm : tryMatchAt .groupedDigits rev (c :: cs) with
      | some p =>
        have h2 := groupedDigits_count rev (c :: cs) p.1 p.2 (by rw [htm])
        have hle : ((c :: cs).take p.1).count '-' ≤ (c :: cs).count '-' :=
          (List.take_sublist p.1 (c :: cs)).count_le '-'
        omega
      | none =>
        simp only [scanAux, htm]
        rw [ih (c :: rev) cs hcs]

/-! ### The ellipsis rule: exact three-dot runs -/

/-- Head test for the ellipsis pattern body `\.{3}(?!\.)`. -/
def isTripleHead (l : Str) : Bool :=
  match l with
  | '.' :: '.' :: '.' :: rest => rest.head? ≠ some '.'
  | _ => false

/-- `hasTriple prevDot l` decides whether `(?<!\.)\.{3}(?!\.)` matches
anywhere in `l`, where `prevDot` records whether the character immediately
before `l` is a dot. -/
def hasTriple (prevDot : Bool) : Str → Bool
  | [] => false
  | c :: cs => (!prevDot && isTripleHead (c :: cs)) || hasTriple (c = '.') cs

/-- If the ellipsis pattern matches at a position, `hasTriple` holds there. -/
theorem ellipsis_match_hasTriple (rev rest : Str) (len : Nat) (gs : List (Option Str))
    (h : tryMatchAt .ellipsis rev rest = some (len, gs)) :
    hasTriple (rev.head? = some '.') rest = true := by
  simp only [tryMatchAt] at h
  split at h
  next after =>
    split at h
    next hb =>
      simp only [Bool.and_eq_true, decide_eq_true_eq] at hb
      simp [hasTriple, isTripleHead, hb.1, hb.2]
    next => exact absurd h (by simp)
  next => exact absurd h (by simp)

/-- Without an exact three-dot run, the ellipsis rule is the identity.
The `prevDot` flag is threaded through the scan via the reversed prefix. -/
theorem scanAux_ellipsis_id (r : Replacer) :
    ∀ fuel rev rest, hasTriple (rev.head? = some '.') rest = false →
      scanAux .ellipsis r fuel rev rest = .ok rest := by
  intro fuel
  induction fuel with
  | zero => intro rev rest _; rfl
  | succ n ih =>
    intro rev rest h
    match rest with
    | [] => rfl
    | c :: cs =>
      have hsplit : (!(rev.head? = some '.' : Bool) && isTripleHead (c :: cs)) = false ∧
          hasTriple (c = '.') cs = false := by
        have := h
        simp only [hasTriple, Bool.or_eq_false_iff] at this
        exact this
      cases htm : tryMatchAt .ellipsis rev (c :: cs) with
      | some p =>
        have := ellipsis_match_hasTriple rev (c :: cs) p.1 p.2 (by rw [htm])
        rw [h] at this
        exact absurd this (by simp)
      | none =>
        simp only [scanAux, htm]
        have : hasTriple ((c :: rev).head? = some '.') cs = false := by
          simp only [List.head?_cons]
          have : ((some c = some '.') : Bool) = ((c = '.') : Bool) := by
            by_cases hc : c = '.'
            · simp [hc]
            · simp [hc]
          rw [this]
          exact hsplit.2
        rw [ih (c :: rev) cs this]

/-! ### Template expansion and capture groups -/

/-- Every character of an expanded template comes from the template itself
or from one of the capture groups. -/
theorem expandTemplate_mem : ∀ (t : Str) (gs : List (Option Str)) (c : Char),
    c ∈ expandTemplate t gs → c ∈ t ∨ ∃ g : Str, some g ∈ gs ∧ c ∈ g := by
  intro t gs c
  induction t, gs using expandTemplate.induct with
  | case1 gs => intro h; exact absurd h (List.not_mem_nil c)
  | case2 gs rest ih =>
    intro h
    simp only [expandTemplate, if_pos rfl] at h
    rcases List.mem_cons.mp h with hc | hc
    · exact Or.inl (by simp [hc])
    · rcases ih hc with hin | hg
      · exact Or.inl (by simp [List.mem_cons.mpr (Or.inr (List.mem_cons.mpr (Or.inr hin)))])
      · exact Or.inr hg
  | case3 gs d rest hne hd g hg ih =>
    intro h
    rw [expandTemplate] at h
    rw [if_neg (by simpa using hne), if_pos hd, hg] at h
    rcases List.mem_append.mp h with hc | hc
    · rcases g with _ | ⟨gv⟩
      · exact absurd hc (by simp)
      · exact Or.inr ⟨gv, List.get?_mem hg, by simpa using hc⟩
    · rcases ih hc with hin | hgm
      · exact Or.inl (by simp [hin])
      · exact Or.inr hgm
  | case4 gs d rest hne hd hg ih =>
    intro h
    rw [expandTemplate] at h
    rw [if_neg (by simpa using hne), if_pos hd, hg] at h
    rcases List.mem_cons.mp h with hc | hc
    · exact Or.inl (by simp [hc])
    · rcases List.mem_cons.mp hc with hc2 | hc2
      · exact Or.inl (by simp [hc2])
      · rcases ih hc2 with hin | hgm
        · exact Or.inl (by simp [hin])
        · exact Or.inr hgm
  | case5 gs d rest hne hcond ih =>
    intro h
    rw [expandTemplate] at h
    rw [if_neg (by simpa using hne), if_neg hcond] at h
    rcases List.mem_cons.mp h with hc | hc
    · exact Or.inl (by simp [hc])
    · rcases List.mem_cons.mp hc with hc2 | hc2
      · exact Or.inl (by simp [hc2])
      · rcases ih hc2 with hin | hgm
        · exact Or.inl (by simp [hin])
        · exact Or.inr hgm
  | case6 gs cc rest hne ih =>
    intro h
    by_cases hcc : cc = '$'
    · subst hcc
      match rest, hne with
      | [], _ =>
        have hh : c ∈ ['$'] := h
        exact Or.inl (by simpa using hh)
      | r1 :: rs, hne => exact absurd rfl (fun hk => hne r1 rs rfl hk)
    · have hred : expandTemplate (cc :: rest) gs = cc :: expandTemplate rest gs := by
        match rest with
        | [] => simp only [expandTemplate]
        | r1 :: rs => simp only [expandTemplate, if_neg hcc]
      rw [hred] at h
      rcases List.mem_cons.mp h with hc | hc
      · exact Or.inl (by simp [hc])
      · rcases ih hc with hin | hgm
        · exact Or.inl (List.mem_cons_of_mem _ hin)
        · exact Or.inr hgm

/-- All capture groups of a match are substrings of the scanned suffix. -/
def GroupsBounded (m : Matcher) : Prop :=
  ∀ rev rest len gs g, tryMatchAt m rev rest = some (len, gs) →
    some g ∈ gs → ∀ c ∈ g, c ∈ rest

theorem groupsBounded_of_nil (m : Matcher)
    (H : ∀ rev rest len gs, tryMatchAt m rev rest = some (len, gs) → gs = []) :
    GroupsBounded m := by
  intro rev rest len gs g htm hg c hc
  rw [H rev rest len gs htm] at hg
  exact absurd hg (List.not_mem_nil _)

theorem nilGroups_ellipsis : GroupsBounded .ellipsis := by
  refine groupsBounded_of_nil _ ?_
  intro rev rest len gs h
  simp only [tryMatchAt] at h
  split at h
  · split at h
    · injection h with h0
      injection h0 with h1 h2
      exact h2.symm
    · exact absurd h (by simp)
  · exact absurd h (by simp)

theorem nilGroups_spacedDash : GroupsBounded .spacedDash := by
  refine groupsBounded_of_nil _ ?_
  intro rev rest len gs h
  simp only [tryMatchAt] at h
  split at h
  · injection h with h0
    injection h0 with h1 h2
    exact h2.symm
  · exact absurd h (by simp)

theorem nilGroups_residualHyphen : GroupsBounded .residualHyphen := by
  refine groupsBounded_of_nil _ ?_
  intro rev rest len gs h
  simp only [tryMatchAt] at h
  split at h
  · split at h
    · injection h with h0
      injection h0 with h1 h2
      exact h2.symm
    · exact absurd h (by simp)
  · exact absurd h (by simp)

theorem nilGroups_heAcronym : GroupsBounded .heAcronym := by
  refine groupsBounded_of_nil _ ?_
  intro rev rest len gs h
  simp only [tryMatchAt] at h
  split at h
  · split at h
    · injection h with h0
      injection h0 with h1 h2
      exact h2.symm
    · exact absurd h (by simp)
  · exact absurd h (by simp)

theorem groupsBounded_rangeDash : GroupsBounded .rangeDash := by
  intro rev rest len gs g htm hg c hc
  simp only [tryMatchAt] at htm
  split at htm
  · exact absurd htm (by simp)
  · split at htm
    next r2 heq =>
      split at htm
      · exact absurd htm (by simp)
      · injection htm with h0
        injection h0 with h1 h2
        subst h2
        rcases List.mem_cons.mp hg with hgd | hgd
        · injection hgd with hgd
          subst hgd
          exact (List.takeWhile_prefix isDigitC).sublist.mem hc
        · rcases List.mem_cons.mp hgd with hgd2 | hgd2
          · injection hgd2 with hgd2
            subst hgd2
            have hcr2 : c ∈ r2 := (List.takeWhile_prefix isDigitC).sublist.mem hc
            have : c ∈ rest.drop (rest.takeWhile isDigitC).length := by
              rw [heq]; exact List.mem_cons_of_mem _ hcr2
            exact List.mem_of_mem_drop this
          · exact absurd hgd2 (List.not_mem_nil _)
    next => exact absurd htm (by simp)

theorem groupsBounded_jaBracketDash : GroupsBounded .jaBracketDash := by
  intro rev rest len gs g htm hg c hc
  simp only [tryMatchAt] at htm
  split at htm
  next rest1 =>
    split at htm
    · split at htm
      next k hk =>
        injection htm with h0
        injection h0 with h1 h2
        subst h2
        rcases List.mem_cons.mp hg with hgd | hgd
        · injection hgd with hgd
          subst hgd
          exact List.mem_cons_of_mem _ (List.mem_of_mem_take hc)
        · exact absurd hgd (List.not_mem_nil _)
      next => exact absurd htm (by simp)
    · exact absurd htm (by simp)
  next => exact absurd htm (by simp)

theorem groupsBounded_deCompound : GroupsBounded .deCompound := by
  intro rev rest len gs g htm hg c hc
  simp only [tryMatchAt] at htm
  split at htm
  next res hres =>
    split at hres
    · exact absurd hres (by simp)
    · split at hres
      next s2 tl heq =>
        split at hres
        · injection hres with h0
          injection htm with h1
          subst h1
          injection h0 with h1 h2
          subst h2
          rcases List.mem_cons.mp hg with hgd | hgd
          · injection hgd with hgd
            subst hgd
            exact (List.takeWhile_prefix isWordChar).sublist.mem hc
          · rcases List.mem_cons.mp hgd with hgd2 | hgd2
            · injection hgd2 with hgd2
              subst hgd2
              have hcs : c = s2 := by simpa using hc
              subst hcs
              have : c ∈ rest.drop (rest.takeWhile isWordChar).length := by
                rw [heq]; exact List.mem_cons_of_mem _ (List.mem_cons_self _ _)
              exact List.mem_of_mem_drop this
            · rcases List.mem_cons.mp hgd2 with hgd3 | hgd3
              · exact absurd hgd3 (by simp)
              · rcases List.mem_cons.mp hgd3 with hgd4 | hgd4
                · exact absurd hgd4 (by simp)
                · exact absurd hgd4 (List.not_mem_nil _)
        · exact absurd hres (by simp)
      next => exact absurd hres (by simp)
  next hres =>
    split at htm
    next s2 r2 =>
      split at htm
      · injection htm with h0
        injection h0 with h1 h2
        subst h2
        rcases List.mem_cons.mp hg with hgd | hgd
        · exact absurd hgd (by simp)
        · rcases List.mem_cons.mp hgd with hgd2 | hgd2
          · exact absurd hgd2 (by simp)
          · rcases List.mem_cons.mp hgd2 with hgd3 | hgd3
            · injection hgd3 with hgd3
              subst hgd3
              have hcs : c = s2 := by simpa using hc
              subst hcs
              exact List.mem_cons_self _ _
            · rcases List.mem_cons.mp hgd3 with hgd4 | hgd4
              · injection hgd4 with hgd4
                subst hgd4
                have hcr : c ∈ r2 := (List.takeWhile_prefix isWordChar).sublist.mem hc
                exact List.mem_cons_of_mem _ (List.mem_cons_of_mem _ hcr)
              · exact absurd hgd4 (List.not_mem_nil _)
      · exact absurd htm (by simp)
    next => exact absurd htm (by simp)

/-! ### Preservation of apostrophe-freeness -/

/-- A rule preserves the absence of the ASCII apostrophe. -/
def PreservesNoApo (rule : Rule) : Prop :=
  ∀ s out : Str, apo ∉ s → applyRule rule s = .ok out → apo ∉ out

/-- A string-template rule whose template contains no ASCII apostrophe and
whose capture groups are substrings of the input preserves
apostrophe-freeness. -/
theorem preservesNoApo_str (m : Matcher) (t : String) (hm : GroupsBounded m)
    (ht : apo ∉ t.data) : PreservesNoApo ⟨m, .str t⟩ := by
  intro s out hs happ hmem
  have H : ∀ rev rest len gs out2, tryMatchAt m rev rest = some (len, gs) →
      applyReplacer (.str t) (rest.take len) gs = .ok out2 →
      ∀ c ∈ out2, c ∈ rest ∨ c ∈ t.data := by
    intro rev rest len gs out2 htm hrep c hc
    simp only [applyReplacer] at hrep
    injection hrep with hrep
    subst hrep
    rcases expandTemplate_mem t.data gs c hc with hin | ⟨g, hgin, hcg⟩
    · exact Or.inr hin
    · exact Or.inl (hm rev rest len gs g htm hgin c hcg)
  rcases scanAux_mem_of_ok m (.str t) t.data H s.length [] s out happ apo hmem with h1 | h2
  · exact hs h1
  · exact ht h2

/-- The date rule only copies characters or writes `U+2010`, so it
preserves apostrophe-freeness. -/
theorem preservesNoApo_date : PreservesNoApo ⟨.isoDate, .dateFn⟩ := by
  intro s out hs happ hmem
  have H : ∀ rev rest len gs out2, tryMatchAt .isoDate rev rest = some (len, gs) →
      applyReplacer .dateFn (rest.take len) gs = .ok out2 →
      ∀ c ∈ out2, c ∈ rest ∨ c ∈ ['‐'] := by
    intro rev rest len gs out2 htm hrep c hc
    simp only [applyReplacer] at hrep
    injection hrep with hrep
    subst hrep
    split at hc
    · rcases List.mem_map.mp hc with ⟨a, ha, hfa⟩
      by_cases had : a = '-'
      · rw [had] at hfa
        simp at hfa
        exact Or.inr (by simp [← hfa])
      · rw [if_neg had] at hfa
        exact Or.inl (List.mem_of_mem_take (hfa ▸ ha))
    · exact Or.inl (List.mem_of_mem_take hc)
  rcases scanAux_mem_of_ok .isoDate .dateFn ['‐'] H s.length [] s out happ apo hmem with h1 | h2
  · exact hs h1
  · simp [apo] at h2

/-- The grouped-digits rule only copies characters or writes `U+2012`, so
it preserves apostrophe-freeness. -/
theorem preservesNoApo_grouped : PreservesNoApo ⟨.groupedDigits, .groupFn⟩ := by
  intro s out hs happ hmem
  have H : ∀ rev rest len gs out2, tryMatchAt .groupedDigits rev rest = some (len, gs) →
      applyReplacer .groupFn (rest.take len) gs = .ok out2 →
      ∀ c ∈ out2, c ∈ rest ∨ c ∈ ['‒'] := by
    intro rev rest len gs out2 htm hrep c hc
    simp only [applyReplacer] at hrep
    injection hrep with hrep
    subst hrep
    rcases List.mem_map.mp hc with ⟨a, ha, hfa⟩
    by_cases had : a = '-'
    · rw [had] at hfa
      simp at hfa
      exact Or.inr (by simp [← hfa])
    · rw [if_neg had] at hfa
      exact Or.inl (List.mem_of_mem_take (hfa ▸ ha))
  rcases scanAux_mem_of_ok .groupedDigits .groupFn ['‒'] H s.length [] s out happ apo hmem with h1 | h2
  · exact hs h1
  · simp [apo] at h2

/-- The apostrophe rule with an apostrophe-free replacement template leaves
no ASCII apostrophe in its output, whatever the input. -/
theorem scanAux_apostrophe_clear (t : String) (ht : apo ∉ t.data) :
    ∀ fuel rev rest out, scanAux .apostrophe (.str t) fuel rev rest = .ok out →
      rest.length ≤ fuel → apo ∉ out := by
  intro fuel
  induction fuel with
  | zero =>
    intro rev rest out h hle
    match rest, hle with
    | [], _ =>
      injection h with h
      subst h
      exact List.not_mem_nil _
  | succ n ih =>
    intro rev rest out h hle
    match rest with
    | [] =>
      injection h with h
      subst h
      exact List.not_mem_nil _
    | c :: cs =>
      by_cases hc : c = '\''
      · subst hc
        have htm : tryMatchAt .apostrophe rev ('\'' :: cs) = some (1, []) := rfl
        simp only [scanAux, htm, applyReplacer] at h
        rw [if_neg (by omega)] at h
        split at h
        next tail hrec =>
          injection h with h
          subst h
          intro hmem
          rcases List.mem_append.mp hmem with hin | hin
          · rcases expandTemplate_mem t.data [] apo hin with hta | ⟨g, hg, _⟩
            · exact ht hta
            · exact absurd hg (List.not_mem_nil _)
          · refine ih _ _ tail hrec ?_ hin
            simp only [List.length_drop, List.length_cons] at *
            omega
        next => exact absurd h (by simp)
      · have htm : tryMatchAt .apostrophe rev (c :: cs) = none := by
          simp only [tryMatchAt]
          split
          next heq =>
            exfalso
            apply hc
            injection heq
          next => rfl
        simp only [scanAux, htm] at h
        split at h
        next tail hrec =>
          injection h with h
          subst h
          intro hmem
          rcases List.mem_cons.mp hmem with hca | hin
          · exact hc (hca ▸ rfl)
          · exact ih _ _ tail hrec (by simpa using Nat.le_of_succ_le_succ hle) hin
        next => exact absurd h (by simp)

/-! ### Sequencing lemmas for `transform` -/

/-- One pipeline step: the head rule runs first and the remaining rules run
on its output. -/
theorem transform_cons (v : String) (r : Rule) (rs : List Rule) :
    transform v (r :: rs) =
      Except.bind (applyRule r v.data) (fun l => transform (String.mk l) rs) := by
  cases h : applyRule r v.data <;> simp [transform, h, Except.bind]

/-- Appended rules run after, on the output of, the earlier rules. -/
theorem transform_append (v : String) (rs1 rs2 : List Rule) :
    transform v (rs1 ++ rs2) =
      Except.bind (transform v rs1) (fun w => transform w rs2) := by
  induction rs1 generalizing v with
  | nil => simp [transform, Except.bind]
  | cons r rs ih =>
    cases h : applyRule r v.data with
    | ok l => simp [transform, h, ih, Except.bind]
    | error e => simp [transform, h, Except.bind]

/-- A chain of apostrophe-preserving rules preserves apostrophe-freeness. -/
theorem transform_chain_no_apo (rules : List Rule)
    (h : ∀ r ∈ rules, PreservesNoApo r) :
    ∀ (v out : String), apo ∉ v.data → transform v rules = .ok out →
      apo ∉ out.data := by
  induction rules with
  | nil =>
    intro v out hv ht
    injection ht with ht
    subst ht
    exact hv
  | cons r rs ih =>
    intro v out hv ht
    simp only [transform] at ht
    cases happ : applyRule r v.data with
    | ok l =>
      rw [happ] at ht
      have hl : apo ∉ l := h r (List.mem_cons_self r rs) v.data l hv happ
      exact ih (fun x hx => h x (List.mem_cons_of_mem r hx)) (String.mk l) out hl ht
    | error e =>
      rw [happ] at ht
      exact absurd ht (by simp)

/-- After the apostrophe rule has run, no later apostrophe-preserving rule
can reintroduce an ASCII apostrophe. -/
theorem transform_no_apo_main (pre post : List Rule) (t : String) (ht : apo ∉ t.data)
    (hpost : ∀ r ∈ post, PreservesNoApo r) :
    ∀ (v out : String),
      transform v (pre ++ ⟨.apostrophe, .str t⟩ :: post) = .ok out →
      apo ∉ out.data := by
  intro v out h
  rw [transform_append] at h
  cases hpre : transform v pre with
  | error e =>
    rw [hpre] at h
    exact absurd h (by simp [Except.bind])
  | ok mid =>
    rw [hpre] at h
    have h2 : transform mid (Rule.mk .apostrophe (.str t) :: post) = .ok out := h
    simp only [transform] at h2
    cases happ : applyRule ⟨.apostrophe, .str t⟩ mid.data with
    | error e =>
      rw [happ] at h2
      exact absurd h2 (by simp)
    | ok l =>
      rw [happ] at h2
      have hl : apo ∉ l :=
        scanAux_apostrophe_clear t ht mid.data.length [] mid.data l happ (le_refl _)
      exact transform_chain_no_apo post hpost (String.mk l) out hl h2

/-- Identity of a rule whose every match would contain a character the
string does not have. -/
theorem applyRule_id_of_trigger (m : Matcher) (r : Replacer) (trig : Char)
    (H : ∀ rev rest len gs, tryMatchAt m rev rest = some (len, gs) → trig ∈ rest.take len)
    (s : Str) (hs : trig ∉ s) : applyRule ⟨m, r⟩ s = .ok s :=
  scanAux_id_of_trigger m r trig H s.length [] s hs

/-! ### Apostrophe preservation for each concrete rule after the
apostrophe rule -/

theorem pres_ellipsis : PreservesNoApo ⟨.ellipsis, .str "…"⟩ :=
  preservesNoApo_str _ _ nilGroups_ellipsis (by decide)

theorem pres_spacedDash : PreservesNoApo ⟨.spacedDash, .str " – "⟩ :=
  preservesNoApo_str _ _ nilGroups_spacedDash (by decide)

theorem pres_range : PreservesNoApo ⟨.rangeDash, .str "$1–$2"⟩ :=
  preservesNoApo_str _ _ groupsBounded_rangeDash (by decide)

theorem pres_hyphen : PreservesNoApo ⟨.residualHyphen, .str "‐"⟩ :=
  preservesNoApo_str _ _ nilGroups_residualHyphen (by decide)

theorem pres_hyphen_he : PreservesNoApo ⟨.residualHyphen, .str "־"⟩ :=
  preservesNoApo_str _ _ nilGroups_residualHyphen (by decide)

theorem pres_deCompound : PreservesNoApo ⟨.deCompound, .str "$1$3‐$2$4"⟩ :=
  preservesNoApo_str _ _ groupsBounded_deCompound (by decide)

theorem pres_jaBracketDash : PreservesNoApo ⟨.jaBracketDash, .str "–$1–"⟩ :=
  preservesNoApo_str _ _ groupsBounded_jaBracketDash (by decide)

theorem pres_heAcronym : PreservesNoApo ⟨.heAcronym, .str "״"⟩ :=
  preservesNoApo_str _ _ nilGroups_heAcronym (by decide)

/-- The rules after the apostrophe rule in the base rule set. -/
def basePost : List Rule :=
  [ ⟨.ellipsis, .str "…"⟩,
    ⟨.spacedDash, .str " – "⟩,
    ⟨.isoDate, .dateFn⟩,
    ⟨.groupedDigits, .groupFn⟩,
    ⟨.rangeDash, .str "$1–$2"⟩,
    ⟨.residualHyphen, .str "‐"⟩ ]

theorem basePost_preserves : ∀ r ∈ basePost, PreservesNoApo r := by
  intro r hr
  simp only [basePost, List.mem_cons, List.not_mem_nil, or_false] at hr
  rcases hr with rfl | rfl | rfl | rfl | rfl | rfl
  · exact pres_ellipsis
  · exact pres_spacedDash
  · exact preservesNoApo_date
  · exact preservesNoApo_grouped
  · exact pres_range
  · exact pres_hyphen

/-- The rules after the apostrophe rule in the Hebrew rule set. -/
def hePost : List Rule :=
  [ ⟨.ellipsis, .str "…"⟩,
    ⟨.spacedDash, .str " – "⟩,
    ⟨.isoDate, .dateFn⟩,
    ⟨.groupedDigits, .groupFn⟩,
    ⟨.rangeDash, .str "$1–$2"⟩,
    ⟨.residualHyphen, .str "־"⟩,
    ⟨.heAcronym, .str "״"⟩ ]

theorem hePost_preserves : ∀ r ∈ hePost, PreservesNoApo r := by
  intro r hr
  simp only [hePost, List.mem_cons, List.not_mem_nil, or_false] at hr
  rcases hr with rfl | rfl | rfl | rfl | rfl | rfl | rfl
  · exact pres_ellipsis
  · exact pres_spacedDash
  · exact preservesNoApo_date
  · exact preservesNoApo_grouped
  · exact pres_range
  · exact pres_hyphen_he
  · exact pres_heAcronym

theorem basePost_de_preserves :
    ∀ r ∈ basePost ++ [(⟨.deCompound, .str "$1$3‐$2$4"⟩ : Rule)], PreservesNoApo r := by
  intro r hr
  rcases List.mem_append.mp hr with hin | hin
  · exact basePost_preserves r hin
  · rcases List.mem_cons.mp hin with rfl | hin
    · exact pres_deCompound
    · exact absurd hin (List.not_mem_nil _)

theorem basePost_ja_preserves :
    ∀ r ∈ basePost ++ [(⟨.jaBracketDash, .str "–$1–"⟩ : Rule)], PreservesNoApo r := by
  intro r hr
  rcases List.mem_append.mp hr with hin | hin
  · exact basePost_preserves r hin
  · rcases List.mem_cons.mp hin with rfl | hin
    · exact pres_jaBracketDash
    · exact absurd hin (List.not_mem_nil _)

/-- The resolved rule set of any language, decomposed around its
apostrophe rule. -/
theorem rulesForLanguage_decomp (lang : Option String) :
    ∃ (pre post : List Rule) (t : String), apo ∉ t.data ∧
      (∀ r ∈ post, PreservesNoApo r) ∧
      punctuationRulesForLanguage lang = pre ++ ⟨.apostrophe, .str t⟩ :: post := by
  match lang with
  | none =>
    exact ⟨punctuationRules.take 5, basePost, "’", by decide, basePost_preserves, by rfl⟩
  | some l =>
    by_cases h1 : l = "en"
    · subst h1
      exact ⟨(punctuationRulesForLanguage (some "en")).take 5, basePost, "’",
        by decide, basePost_preserves, by rfl⟩
    by_cases h2 : l = "fr"
    · subst h2
      exact ⟨(punctuationRulesForLanguage (some "fr")).take 5, basePost, "’",
        by decide, basePost_preserves, by rfl⟩
    by_cases h3 : l = "de"
    · subst h3
      exact ⟨(punctuationRulesForLanguage (some "de")).take 5,
        basePost ++ [⟨.deCompound, .str "$1$3‐$2$4"⟩], "’",
        by decide, basePost_de_preserves, by rfl⟩
    by_cases h4 : l = "he"
    · subst h4
      exact ⟨(punctuationRulesForLanguage (some "he")).take 5, hePost, "׳",
        by decide, hePost_preserves, by rfl⟩
    by_cases h5 : l = "ja"
    · subst h5
      exact ⟨(punctuationRulesForLanguage (some "ja")).take 5,
        basePost ++ [⟨.jaBracketDash, .str "–$1–"⟩], "’",
        by decide, basePost_ja_preserves, by rfl⟩
    · refine ⟨punctuationRules.take 5, basePost, "’", by decide, basePost_preserves, ?_⟩
      have hov : languageSpecificOverrides (some l) = none := by
        simp only [languageSpecificOverrides]
        rw [if_neg h1, if_neg h2, if_neg h3, if_neg h4]
      have hex : languageSpecificRules (some l) = none := by
        simp only [languageSpecificRules]
        rw [if_neg h3, if_neg h5, if_neg h4]
      simp only [punctuationRulesForLanguage, hov, hex]
      rfl

/-! ### Claim theorems (first batch) -/

/-- C10: For every input string and every locale, the output of `transform`
with the rule set resolved by `punctuationRulesForLanguage` contains no
ASCII apostrophe (U+0027): the residual-apostrophe rule replaces every
remaining apostrophe globally, and no later base rule, locale override, or
locale extra rule reintroduces one. -/
theorem C10_no_ascii_apostrophe (s : String) (lang : Option String) (out : String)
    (h : transform s (punctuationRulesForLanguage lang) = .ok out) :
    '\'' ∉ out.data := by
  obtain ⟨pre, post, t, ht, hpost, heq⟩ := rulesForLanguage_decomp lang
  rw [heq] at h
  exact transform_no_apo_main pre post t ht hpost s out h

/-- Witness for C10 at a concrete input. -/
theorem C10_no_ascii_apostrophe_witness :
    '\'' ∉ ("a’" : String).data :=
  C10_no_ascii_apostrophe (String.mk ['a', '\'']) none "a’" (by rfl)

/-- C9: For every string that already contains only the target Unicode
punctuation forms (no ASCII straight quotes, apostrophes, or hyphens, and
no run of exactly three periods), applying the engine with the base rules
yields the identical string: no rule fires a second time. -/
theorem C9_idempotent (s : String)
    (h1 : '"' ∉ s.data) (h2 : '\'' ∉ s.data) (h3 : '-' ∉ s.data)
    (h4 : hasTriple false s.data = false) :
    transform s punctuationRules = .ok s := by
  have e0 : applyRule ⟨.doubleQuotedText, .str "“$1”"⟩ s.data = .ok s.data :=
    applyRule_id_of_trigger _ _ _ trigger_doubleQuotedText s.data h1
  have e1 : applyRule ⟨.nIdiom, .str "’$1’"⟩ s.data = .ok s.data :=
    applyRule_id_of_trigger _ _ _ trigger_nIdiom s.data h2
  have e2 : applyRule ⟨.singleQuotedText, .str "‘$1’"⟩ s.data = .ok s.data :=
    applyRule_id_of_trigger _ _ _ trigger_singleQuotedText s.data h2
  have e3 : applyRule ⟨.doublePrimes, .str "$1″"⟩ s.data = .ok s.data :=
    applyRule_id_of_trigger _ _ _ trigger_doublePrimes s.data h1
  have e4 : applyRule ⟨.singlePrimes, .str "$1′$2"⟩ s.data = .ok s.data :=
    applyRule_id_of_trigger _ _ _ trigger_singlePrimes s.data h2
  have e5 : applyRule ⟨.apostrophe, .str "’"⟩ s.data = .ok s.data :=
    applyRule_id_of_trigger _ _ _ trigger_apostrophe s.data h2
  have e6 : applyRule ⟨.ellipsis, .str "…"⟩ s.data = .ok s.data :=
    scanAux_ellipsis_id _ s.data.length [] s.data h4
  have e7 : applyRule ⟨.spacedDash, .str " – "⟩ s.data = .ok s.data :=
    applyRule_id_of_trigger _ _ _ trigger_spacedDash s.data h3
  have e8 : applyRule ⟨.isoDate, .dateFn⟩ s.data = .ok s.data :=
    applyRule_id_of_trigger _ _ _ trigger_isoDate s.data h3
  have e9 : applyRule ⟨.groupedDigits, .groupFn⟩ s.data = .ok s.data :=
    applyRule_id_of_trigger _ _ _ trigger_groupedDigits s.data h3
  have e10 : applyRule ⟨.rangeDash, .str "$1–$2"⟩ s.data = .ok s.data :=
    applyRule_id_of_trigger _ _ _ trigger_rangeDash s.data h3
  have e11 : applyRule ⟨.residualHyphen, .str "‐"⟩ s.data = .ok s.data :=
    applyRule_id_of_trigger _ _ _ trigger_residualHyphen s.data h3
  simp only [punctuationRules, transform, e0, e1, e2, e3, e4, e5, e6, e7, e8, e9,
    e10, e11]

/-- Witness for C9: a string already in the target Unicode forms. -/
theorem C9_idempotent_witness :
    transform "rock ’n’ roll – “x” 3′42″ 1987‐07‐30… " punctuationRules =
      .ok "rock ’n’ roll – “x” 3′42″ 1987‐07‐30… " :=
  C9_idempotent _ (by decide) (by decide) (by decide) (by decide)

/-! ### Heap model of rule-set resolution (for aliasing/frame claims)

In the source, `punctuationRules` is a global array of rule arrays and
`punctuationRulesForLanguage` copies only the rule arrays at the override
indices (`[...rule]`), sharing every other rule array by reference, and
pushes the shared `languageSpecificRules` arrays.  To reason about
mutation we model rule arrays as heap cells addressed by natural numbers:
the base table owns cells `0`..`11`, the three language extra rules own
cells `12`..`14`, and resolution allocates fresh cells only for the
override indices. -/

structure Store where
  cells : Nat → Rule
  next : Nat

/-- Placeholder content of unallocated cells. -/
def dummyRule : Rule := ⟨.apostrophe, .str ""⟩

/-- Addresses of the base rule table `punctuationRules`. -/
def baseAddrs : List Nat := [0, 1, 2, 3, 4, 5, 6, 7, 8, 9, 10, 11]

/-- Addresses of the language-specific extra rule arrays. -/
def extraAddrsFor (language : Option String) : List Nat :=
  if language = some "de" then [12]
  else if language = some "ja" then [13]
  else if language = some "he" then [14]
  else []

/-- The initial heap: the base table at `0`..`11`, the extra rules of
`languageSpecificRules` at `12`..`14`. -/
def initStore : Store :=
  ⟨fun a =>
    if a < 12 then punctuationRules.getD a dummyRule
    else if a = 12 then ⟨.deCompound, .str "$1$3‐$2$4"⟩
    else if a = 13 then ⟨.jaBracketDash, .str "–$1–"⟩
    else if a = 14 then ⟨.heAcronym, .str "״"⟩
    else dummyRule, 15⟩

/-- `punctuationRules.map((rule, index) => overrideRuleIndices.includes(index)
? [...rule] : rule)`: walk the indexed base addresses; at an override index
allocate a fresh cell holding a copy of the rule, otherwise share the
address. -/
def resolveCopies : Store → List (Nat × Nat) → List Nat × Store
  | st, [] => ([], st)
  | st, (i, a) :: rest =>
    if overrideRuleIndices.contains i then
      let fresh := st.next
      let st1 : Store := ⟨fun x => if x = fresh then st.cells a else st.cells x, st.next + 1⟩
      let (as2, st2) := resolveCopies st1 rest
      (fresh :: as2, st2)
    else
      let (as2, st2) := resolveCopies st rest
      (a :: as2, st2)

/-- `rules[ruleIndex][replaceValueIndex] = value`: in-place update of the
replace value of the rule cell at one address. -/
def writeReplaceValue (st : Store) (a : Nat) (v : String) : Store :=
  ⟨fun x => if x = a then ⟨(st.cells a).searchValue, .str v⟩ else st.cells x, st.next⟩

/-- Arbitrary in-place mutation of a rule cell. -/
def writeRule (st : Store) (a : Nat) (r : Rule) : Store :=
  ⟨fun x => if x = a then r else st.cells x, st.next⟩

/-- The rule sequence seen through a list of cell addresses. -/
def readRules (st : Store) (addrs : List Nat) : List Rule :=
  addrs.map st.cells

/-- Heap-level `punctuationRulesForLanguage`: copy-or-share the base cells,
write the language-specific replace values into the override cells, then
append the (shared) addresses of the language extra rules. -/
def punctuationRulesForLanguageHeap (language : Option String) (st : Store) :
    List Nat × Store :=
  let (addrs, st1) := resolveCopies st (baseAddrs.enum.map (fun p => (p.1, p.2)))
  let st2 :=
    match languageSpecificOverrides language with
    | some values =>
      values.enum.foldl
        (fun s p =>
          match overrideRuleIndices.get? p.1 with
          | some ruleIndex => writeReplaceValue s (addrs.getD ruleIndex 0) p.2
          | none => s)
        st1
    | none => st1
  (addrs ++ extraAddrsFor language, st2)

/-- Scenario for the frame claims: resolve French, then German, from the
initial heap. -/
def frResolved : List Nat × Store := punctuationRulesForLanguageHeap (some "fr") initStore

def deResolved : List Nat × Store := punctuationRulesForLanguageHeap (some "de") frResolved.2

/-- C2 counterexample: the claim "mutating any rule of a resolved RuleSet
leaves the base template and every other locale's previously resolved
RuleSet unchanged" is false.  Rule index 1 (the `'n'` idiom rule) is not an
override index, so the resolved French rule set shares its cell with the
base table and with the resolved German rule set: mutating it through the
French rule set changes both. -/
theorem C2_counterexample :
    readRules (writeRule deResolved.2 (frResolved.1.getD 1 0)
        ⟨.ellipsis, .str "X"⟩) baseAddrs ≠ readRules deResolved.2 baseAddrs ∧
    readRules (writeRule deResolved.2 (frResolved.1.getD 1 0)
        ⟨.ellipsis, .str "X"⟩) deResolved.1 ≠ readRules deResolved.2 deResolved.1 := by
  constructor
  · decide
  · decide

/-- C2 amended: resolving a rule set never mutates the base rule table, the
resolved address list reads back exactly the value-level resolved rule set,
and mutating a rule at an override slot (indices 0, 2, 5, 11) of one
locale's resolved rule set leaves the base template and the other locale's
previously resolved rule set unchanged; rules at other positions are shared
with the base table, not independently owned. -/
theorem C2_amended :
    (readRules frResolved.2 baseAddrs = readRules initStore baseAddrs ∧
     readRules deResolved.2 baseAddrs = readRules initStore baseAddrs ∧
     readRules deResolved.2 frResolved.1 = readRules frResolved.2 frResolved.1) ∧
    (readRules frResolved.2 frResolved.1 = punctuationRulesForLanguage (some "fr") ∧
     readRules deResolved.2 deResolved.1 = punctuationRulesForLanguage (some "de")) ∧
    (∀ r : Rule,
      (readRules (writeRule deResolved.2 (frResolved.1.getD 0 99) r) baseAddrs
          = readRules deResolved.2 baseAddrs ∧
        readRules (writeRule deResolved.2 (frResolved.1.getD 0 99) r) deResolved.1
          = readRules deResolved.2 deResolved.1) ∧
      (readRules (writeRule deResolved.2 (frResolved.1.getD 2 99) r) baseAddrs
          = readRules deResolved.2 baseAddrs ∧
        readRules (writeRule deResolved.2 (frResolved.1.getD 2 99) r) deResolved.1
          = readRules deResolved.2 deResolved.1) ∧
      (readRules (writeRule deResolved.2 (frResolved.1.getD 5 99) r) baseAddrs
          = readRules deResolved.2 baseAddrs ∧
        readRules (writeRule deResolved.2 (frResolved.1.getD 5 99) r) deResolved.1
          = readRules deResolved.2 deResolved.1) ∧
      (readRules (writeRule deResolved.2 (frResolved.1.getD 11 99) r) baseAddrs
          = readRules deResolved.2 baseAddrs ∧
        readRules (writeRule deResolved.2 (frResolved.1.getD 11 99) r) deResolved.1
          = readRules deResolved.2 deResolved.1)) ∧
    (∀ r : Rule,
      (readRules (writeRule deResolved.2 (deResolved.1.getD 0 99) r) baseAddrs
          = readRules deResolved.2 baseAddrs ∧
        readRules (writeRule deResolved.2 (deResolved.1.getD 0 99) r) frResolved.1
          = readRules deResolved.2 frResolved.1) ∧
      (readRules (writeRule deResolved.2 (deResolved.1.getD 2 99) r) baseAddrs
          = readRules deResolved.2 baseAddrs ∧
        readRules (writeRule deResolved.2 (deResolved.1.getD 2 99) r) frResolved.1
          = readRules deResolved.2 frResolved.1) ∧
      (readRules (writeRule deResolved.2 (deResolved.1.getD 5 99) r) baseAddrs
          = readRules deResolved.2 baseAddrs ∧
        readRules (writeRule deResolved.2 (deResolved.1.getD 5 99) r) frResolved.1
          = readRules deResolved.2 frResolved.1) ∧
      (readRules (writeRule deResolved.2 (deResolved.1.getD 11 99) r) baseAddrs
          = readRules deResolved.2 baseAddrs ∧
        readRules (writeRule deResolved.2 (deResolved.1.getD 11 99) r) frResolved.1
          = readRules deResolved.2 frResolved.1)) := by
  refine ⟨⟨by decide, by decide, by decide⟩, ⟨by decide, by decide⟩, ?_, ?_⟩
  · intro r
    exact ⟨⟨rfl, rfl⟩, ⟨rfl, rfl⟩, ⟨rfl, rfl⟩, ⟨rfl, rfl⟩⟩
  · intro r
    exact ⟨⟨rfl, rfl⟩, ⟨rfl, rfl⟩, ⟨rfl, rfl⟩, ⟨rfl, rfl⟩⟩

/-- The search values of a resolved rule set: the base matchers in order,
followed by the matchers of the locale extra rules.  Locale overrides
replace only replace values, never search values. -/
theorem rulesForLanguage_searchValues (lang : Option String) :
    (punctuationRulesForLanguage lang).map Rule.searchValue =
      punctuationRules.map Rule.searchValue ++
      ((languageSpecificRules lang).getD []).map Rule.searchValue := by
  match lang with
  | none => rfl
  | some l =>
    by_cases h1 : l = "en"
    · subst h1; rfl
    by_cases h2 : l = "fr"
    · subst h2; rfl
    by_cases h3 : l = "de"
    · subst h3; rfl
    by_cases h4 : l = "he"
    · subst h4; rfl
    by_cases h5 : l = "ja"
    · subst h5; rfl
    · have hov : languageSpecificOverrides (some l) = none := by
        simp only [languageSpecificOverrides]
        rw [if_neg h1, if_neg h2, if_neg h3, if_neg h4]
      have hex : languageSpecificRules (some l) = none := by
        simp only [languageSpecificRules]
        rw [if_neg h3, if_neg h5, if_neg h4]
      simp only [punctuationRulesForLanguage, hov, hex]
      rfl

/-- C1: For every input string, the Transformation Engine applies the base
rules as a pipeline in the fixed total order — double-quoted text, the
`'n'` idiom, single-quoted text, double primes, single primes, residual
apostrophes, ellipsis, spaced word-separator dash, ISO-date hyphens,
grouped-digit figure dash, range en dash, residual hyphen — each rule a
global find-and-replace over the string produced by all earlier rules
(`transform` folds `applyRule` left to right), and locale extra rules are
applied after this fixed sequence. -/
theorem C1_pipeline_order :
    (∀ lang : Option String,
      (punctuationRulesForLanguage lang).map Rule.searchValue =
        [Matcher.doubleQuotedText, .nIdiom, .singleQuotedText, .doublePrimes,
         .singlePrimes, .apostrophe, .ellipsis, .spacedDash, .isoDate,
         .groupedDigits, .rangeDash, .residualHyphen] ++
        ((languageSpecificRules lang).getD []).map Rule.searchValue) ∧
    (∀ (v : String) (r : Rule) (rs : List Rule),
      transform v (r :: rs) =
        Except.bind (applyRule r v.data) (fun l => transform (String.mk l) rs)) ∧
    (∀ (v : String) (rs1 rs2 : List Rule),
      transform v (rs1 ++ rs2) =
        Except.bind (transform v rs1) (fun w => transform w rs2)) := by
  refine ⟨?_, transform_cons, transform_append⟩
  intro lang
  rw [rulesForLanguage_searchValues lang]
  rfl

/-! ### JavaScript property-lookup semantics of the locale tables

`languageSpecificOverrides` and `languageSpecificRules` are object
literals, and `punctuationRulesForLanguage` indexes them with
`table[language]?.forEach(...)`.  An object-literal lookup falls back to
the prototype chain: for a key such as `toString` or `__proto__`, which has
no own entry but is inherited from `Object.prototype`, the lookup yields a
non-nullish function or object, the optional chain does not short-circuit,
and the subsequent `.forEach` call throws a `TypeError`.  The refined
resolver below models that error path; the plain
`punctuationRulesForLanguage` above models only the own-key behaviour. -/

/-- Result of a JavaScript object-literal property read: an own property, a
property inherited from `Object.prototype` (non-nullish, without a
`forEach` method), or `undefined`. -/
inductive JsLookup (α : Type) where
  | own (v : α)
  | inherited
  | absent
deriving DecidableEq, Repr

/-- Property names an object literal inherits from `Object.prototype`. -/
def objectPrototypeKeys : List String :=
  ["constructor", "hasOwnProperty", "isPrototypeOf", "propertyIsEnumerable",
   "toLocaleString", "toString", "valueOf", "__proto__", "__defineGetter__",
   "__defineSetter__", "__lookupGetter__", "__lookupSetter__"]

/-- `table[language]` with prototype-chain fallback: an own entry wins,
otherwise an `Object.prototype` key yields an inherited member, otherwise
`undefined` (an absent `language` is coerced to the key `"undefined"`,
which is not a prototype key). -/
def jsIndex {α : Type} (own : Option String → Option α) (language : Option String) :
    JsLookup α :=
  match own language with
  | some v => .own v
  | none =>
    match language with
    | some l => if objectPrototypeKeys.contains l then .inherited else .absent
    | none => .absent

/-- `punctuationRulesForLanguage` with faithful JavaScript lookup
semantics: `languageSpecificOverrides[language]?.forEach(...)` and
`languageSpecificRules[language]?.forEach(...)` throw a `TypeError` when
the lookup hits an inherited `Object.prototype` member, because the
optional chain does not short-circuit on a non-nullish value that lacks
`forEach`. -/
def punctuationRulesForLanguageJs (language : Option String) : Except Unit (List Rule) :=
  let rules := punctuationRules
  match jsIndex languageSpecificOverrides language with
  | .inherited => .error ()
  | lk1 =>
    let rules :=
      match lk1 with
      | .own values => applyOverrides rules values
      | _ => rules
    match jsIndex languageSpecificRules language with
    | .inherited => .error ()
    | .own extra => .ok (rules ++ extra)
    | .absent => .ok rules

/-- Away from the inherited `Object.prototype` keys, the refined resolver
agrees with the plain one and never throws. -/
theorem rulesForLanguageJs_ok (lang : Option String)
    (hpk : ∀ l, lang = some l → objectPrototypeKeys.contains l = false) :
    punctuationRulesForLanguageJs lang = .ok (punctuationRulesForLanguage lang) := by
  cases lang with
  | none => rfl
  | some l =>
    have hc : objectPrototypeKeys.contains l = false := hpk l rfl
    have hc2 : l ∉ objectPrototypeKeys := by simpa using hc
    cases hov : languageSpecificOverrides (some l) with
    | some vals =>
      cases hex : languageSpecificRules (some l) <;>
        simp [punctuationRulesForLanguageJs, punctuationRulesForLanguage, jsIndex, hov, hc2, *]
    | none =>
      cases hex : languageSpecificRules (some l) <;>
        simp [punctuationRulesForLanguageJs, punctuationRulesForLanguage, jsIndex, hov, hc2, *]

/-- C3 counterexample: the claim fails in two independent ways.  `"ja"` has
no entry in the locale override table, yet the returned rule set is not
equal to the base rules (the Japanese extra rule is appended); and
`"toString"` has no entry in either table, yet the resolver — with the
source's JavaScript lookup semantics — throws a `TypeError` instead of
degrading to the base rules, because the object-literal lookup finds the
inherited `Object.prototype.toString` and `?.forEach` is then called on a
function without a `forEach` method. -/
theorem C3_counterexample :
    punctuationRulesForLanguage (some "ja") ≠ punctuationRules ∧
    punctuationRulesForLanguageJs (some "toString") = .error () := by
  exact ⟨by decide, by rfl⟩

/-- C3 amended: for every language argument with no entry in the locale
override table, no entry in the locale extra-rules table, and not naming a
property inherited from `Object.prototype` (including absent and ordinary
unknown values), `punctuationRulesForLanguage` returns a rule set equal to
the base rule set and does not raise an error; arguments naming inherited
`Object.prototype` properties instead make the resolver throw a
`TypeError`. -/
theorem C3_unknown_locale (lang : Option String)
    (hov : languageSpecificOverrides lang = none)
    (hex : languageSpecificRules lang = none)
    (hpk : ∀ l, lang = some l → objectPrototypeKeys.contains l = false) :
    punctuationRulesForLanguageJs lang = .ok punctuationRules ∧
    punctuationRulesForLanguage lang = punctuationRules := by
  have h2 : punctuationRulesForLanguage lang = punctuationRules := by
    simp only [punctuationRulesForLanguage, hov, hex]
  exact ⟨by rw [rulesForLanguageJs_ok lang hpk, h2], h2⟩

/-- Witness for C3 at the concrete unknown locale `"xx"`. -/
theorem C3_unknown_locale_witness :
    punctuationRulesForLanguageJs (some "xx") = .ok punctuationRules ∧
    punctuationRulesForLanguage (some "xx") = punctuationRules :=
  C3_unknown_locale (some "xx") (by decide) (by decide)
    (by intro l hl; injection hl with hl; subst hl; decide)

/-- C8: Transforming `"Bonjour"` (delimited by ASCII double quotes) yields
`« Bonjour »` under locale `fr`, `„Bonjour“` under locale `de`, and
`“Bonjour”` with no locale; the locale override substitutes only the
replace value of the double-quote rule, never its search value (the first
twelve search values of every resolved rule set are those of the base
rules). -/
theorem C8_locale_override :
    transform "\"Bonjour\"" (punctuationRulesForLanguage (some "fr")) = .ok "« Bonjour »" ∧
    transform "\"Bonjour\"" (punctuationRulesForLanguage (some "de")) = .ok "„Bonjour“" ∧
    transform "\"Bonjour\"" (punctuationRulesForLanguage none) = .ok "“Bonjour”" ∧
    (∀ lang : Option String,
      ((punctuationRulesForLanguage lang).take 12).map Rule.searchValue =
        punctuationRules.map Rule.searchValue) := by
  refine ⟨by rfl, by rfl, by rfl, ?_⟩
  intro lang
  have h12 : (punctuationRules.map Rule.searchValue).length = 12 := by rfl
  rw [List.map_take, rulesForLanguage_searchValues lang]
  exact List.take_left' h12

/-! ### Digit groups joined by separators (for the figure-dash/en-dash
threshold) -/

/-- Digit groups joined by a single separator character. -/
def joinSep (sep : Char) : List Str → Str
  | [] => []
  | [g] => g
  | g :: gs => g ++ sep :: joinSep sep gs

/-- Characters of a join are the separator or group characters. -/
theorem mem_joinSep (sep : Char) :
    ∀ (gs : List Str) (c : Char), c ∈ joinSep sep gs →
      c = sep ∨ ∃ g ∈ gs, c ∈ g := by
  intro gs
  induction gs with
  | nil => intro c hc; exact absurd hc (List.not_mem_nil c)
  | cons g rest ih =>
    intro c hc
    match rest with
    | [] => exact Or.inr ⟨g, List.mem_cons_self _ _, hc⟩
    | r1 :: rs =>
      rcases List.mem_append.mp hc with hin | hin
      · exact Or.inr ⟨g, List.mem_cons_self _ _, hin⟩
      · rcases List.mem_cons.mp hin with rfl | hin
        · exact Or.inl rfl
        · rcases ih c hin with h | ⟨g2, hg2, hcg2⟩
          · exact Or.inl h
          · exact Or.inr ⟨g2, List.mem_cons_of_mem _ hg2, hcg2⟩

/-- A character of a hyphen-join of digit groups is a hyphen or a digit. -/
theorem mem_joinSep_digit (sep : Char) (gs : List Str)
    (hok : ∀ g ∈ gs, ∀ c ∈ g, isDigitC c = true) (c : Char)
    (hc : c ∈ joinSep sep gs) : c = sep ∨ isDigitC c = true := by
  rcases mem_joinSep sep gs c hc with h | ⟨g, hg, hcg⟩
  · exact Or.inl h
  · exact Or.inr (hok g hg c hcg)

/-- The leading digit run of a digit-group join is exactly the first
group. -/
theorem takeWhile_joinSep (g : Str) (gs : List Str) (hg : ∀ c ∈ g, isDigitC c = true) :
    (joinSep '-' (g :: gs)).takeWhile isDigitC = g := by
  match gs with
  | [] =>
    exact List.takeWhile_eq_self_iff.mpr hg
  | r1 :: rs =>
    show ((g ++ '-' :: joinSep '-' (r1 :: rs)).takeWhile isDigitC) = g
    rw [List.takeWhile_append]
    rw [List.takeWhile_eq_self_iff.mpr hg]
    simp [isDigitC]

/-- Dropping the first group of a join leaves the separator and the rest. -/
theorem drop_joinSep (g : Str) (r1 : Str) (rs : List Str) :
    (joinSep '-' (g :: r1 :: rs)).drop g.length = '-' :: joinSep '-' (r1 :: rs) := by
  show ((g ++ '-' :: joinSep '-' (r1 :: rs)).drop g.length) = '-' :: joinSep '-' (r1 :: rs)
  exact List.drop_left g _

/-- Length bound: a join of nonempty groups has at least one character per
group. -/
theorem joinSep_length_ge (sep : Char) :
    ∀ gs : List Str, (∀ g ∈ gs, g ≠ []) → gs.length ≤ (joinSep sep gs).length := by
  intro gs
  induction gs with
  | nil => intro _; simp [joinSep]
  | cons g rest ih =>
    intro hok
    match rest with
    | [] =>
      have := hok g (List.mem_cons_self _ _)
      have : 1 ≤ g.length := by
        cases g with
        | nil => exact absurd rfl this
        | cons a l => simp
      simpa [joinSep] using this
    | r1 :: rs =>
      have h1 : (r1 :: rs).length ≤ (joinSep sep (r1 :: rs)).length :=
        ih (fun x hx => hok x (List.mem_cons_of_mem _ hx))
      have h2 : 1 ≤ g.length := by
        have := hok g (List.mem_cons_self _ _)
        cases g with
        | nil => exact absurd rfl this
        | cons a l => simp
      show (g :: r1 :: rs).length ≤ (g ++ sep :: joinSep sep (r1 :: rs)).length
      simp only [List.length_cons, List.length_append] at h1 ⊢
      omega

/-- Mapping the separator of a join to another character, leaving digit
groups alone. -/
theorem map_joinSep (gs : List Str) (hok : ∀ g ∈ gs, ∀ c ∈ g, isDigitC c = true)
    (d : Char) :
    (joinSep '-' gs).map (fun c => if c = '-' then d else c) = joinSep d gs := by
  induction gs with
  | nil => rfl
  | cons g rest ih =>
    have hgmap : g.map (fun c => if c = '-' then d else c) = g := by
      have hcongr : ∀ c ∈ g, (if c = '-' then d else c) = id c := by
        intro c hc
        have : isDigitC c = true := hok g (List.mem_cons_self _ _) c hc
        have hcd : c ≠ '-' := by
          intro hcontra
          subst hcontra
          simp [isDigitC, Char.isDigit] at this
        simp [if_neg hcd]
      rw [List.map_congr_left hcongr, List.map_id]
    match rest with
    | [] => exact hgmap
    | r1 :: rs =>
      show ((g ++ '-' :: joinSep '-' (r1 :: rs)).map _) = g ++ d :: joinSep d (r1 :: rs)
      rw [List.map_append, hgmap, List.map_cons,
        ih (fun x hx => hok x (List.mem_cons_of_mem _ hx))]
      simp

theorem repsAux_joinSep :
    ∀ (gs : List Str) (fuel : Nat),
      (∀ g ∈ gs, g ≠ [] ∧ ∀ c ∈ g, isDigitC c = true) →
      gs ≠ [] → gs.length ≤ fuel →
      repsAux fuel ('-' :: joinSep '-' gs) = (gs.length, (joinSep '-' gs).length + 1) := by
  intro gs
  induction gs with
  | nil => intro fuel _ hne _; exact absurd rfl hne
  | cons g rest ih =>
    intro fuel hok _ hfuel
    match fuel, hfuel with
    | fuelp + 1, hf2 =>
      have hg := hok g (List.mem_cons_self _ _)
      have htw : (joinSep '-' (g :: rest)).takeWhile isDigitC = g :=
        takeWhile_joinSep g rest hg.2
      have hgne : ¬ (g.isEmpty = true) := by
        cases g with
        | nil => exact absurd rfl hg.1
        | cons a l => simp
      simp only [repsAux, if_pos rfl, htw]
      rw [if_neg hgne]
      match rest with
      | [] =>
        have hdrop : (joinSep '-' [g]).drop g.length = [] := by
          show (g.drop g.length) = []
          simp
        rw [hdrop]
        have hreps : repsAux fuelp [] = (0, 0) := by
          match fuelp with
          | 0 => rfl
          | k + 1 => rfl
        simp only [hreps]
        show ((0 : Nat) + 1, 0 + 1 + g.length) = (1, (joinSep '-' [g]).length + 1)
        have : joinSep '-' [g] = g := rfl
        rw [this]
        simp [Prod.mk.injEq]
        omega
      | r1 :: rs =>
        rw [drop_joinSep g r1 rs]
        have hrec := ih fuelp (fun x hx => hok x (List.mem_cons_of_mem _ hx))
          (by simp) (by simp at hf2 ⊢; omega)
        simp only [hrec]
        have hj : joinSep '-' (g :: r1 :: rs) = g ++ '-' :: joinSep '-' (r1 :: rs) := rfl
        rw [hj]
        simp only [List.length_cons, List.length_append, Prod.mk.injEq, if_true]
        refine ⟨trivial, by omega⟩

/-- When the pattern matches the whole string at position zero, the global
replace is just that one replacement. -/
theorem scanAux_single_full_match (m : Matcher) (r : Replacer) (fuel : Nat)
    (rev rest : Str) (gs : List (Option Str)) (out : Str)
    (hne : rest ≠ [])
    (htm : tryMatchAt m rev rest = some (rest.length, gs))
    (hrep : applyReplacer r rest gs = .ok out)
    (hfuel : 1 ≤ fuel) :
    scanAux m r fuel rev rest = .ok out := by
  match fuel, hfuel with
  | k + 1, _ =>
    match rest, hne with
    | c :: cs, _ =>
      simp only [scanAux, htm]
      rw [if_neg (by simp)]
      rw [List.take_length, hrep, List.drop_length]
      have hnil : scanAux m r k ((c :: cs).reverse ++ rev) [] = .ok [] := by
        match k with
        | 0 => rfl
        | k2 + 1 => rfl
      rw [hnil]
      simp

/-- The grouped-digits rule turns a join of three or more digit groups into
the same groups joined by figure dashes, in one match. -/
theorem applyRule_grouped_joinSep (g : Str) (gs : List Str)
    (hok : ∀ x ∈ g :: gs, x ≠ [] ∧ ∀ c ∈ x, isDigitC c = true)
    (h2 : 2 ≤ gs.length) :
    applyRule ⟨.groupedDigits, .groupFn⟩ (joinSep '-' (g :: gs)) =
      .ok (joinSep '‒' (g :: gs)) := by
  have hg := hok g (List.mem_cons_self _ _)
  have htw : (joinSep '-' (g :: gs)).takeWhile isDigitC = g :=
    takeWhile_joinSep g gs hg.2
  have hgne : ¬ (g.isEmpty = true) := by
    cases g with
    | nil => exact absurd rfl hg.1
    | cons a l => simp
  match gs, h2 with
  | r1 :: rs, h2b =>
    have hdrop : (joinSep '-' (g :: r1 :: rs)).drop g.length = '-' :: joinSep '-' (r1 :: rs) :=
      drop_joinSep g r1 rs
    have hlen : (r1 :: rs).length ≤ (joinSep '-' (g :: r1 :: rs)).length := by
      have hb : (r1 :: rs).length ≤ (joinSep '-' (r1 :: rs)).length :=
        joinSep_length_ge '-' (r1 :: rs) (fun x hx => (hok x (List.mem_cons_of_mem _ hx)).1)
      have hj : joinSep '-' (g :: r1 :: rs) = g ++ '-' :: joinSep '-' (r1 :: rs) := rfl
      rw [hj]
      simp only [List.length_append, List.length_cons] at hb ⊢
      omega
    have hreps : repsAux (joinSep '-' (g :: r1 :: rs)).length
        ('-' :: joinSep '-' (r1 :: rs)) =
        ((r1 :: rs).length, (joinSep '-' (r1 :: rs)).length + 1) :=
      repsAux_joinSep (r1 :: rs) _ (fun x hx => hok x (List.mem_cons_of_mem _ hx))
        (by simp) hlen
    have hlen2 : g.length + ((joinSep '-' (r1 :: rs)).length + 1) =
        (joinSep '-' (g :: r1 :: rs)).length := by
      have hj : joinSep '-' (g :: r1 :: rs) = g ++ '-' :: joinSep '-' (r1 :: rs) := rfl
      rw [hj]
      simp only [List.length_append, List.length_cons]
      try omega
    have htm : tryMatchAt .groupedDigits [] (joinSep '-' (g :: r1 :: rs)) =
        some ((joinSep '-' (g :: r1 :: rs)).length, []) := by
      simp only [tryMatchAt, htw]
      rw [if_neg hgne, hdrop, hreps]
      rw [if_pos h2b]
      rw [hlen2]
    have hne : joinSep '-' (g :: r1 :: rs) ≠ [] := by
      have hj : joinSep '-' (g :: r1 :: rs) = g ++ '-' :: joinSep '-' (r1 :: rs) := rfl
      rw [hj]
      simp
    have hrep : applyReplacer .groupFn (joinSep '-' (g :: r1 :: rs)) [] =
        .ok (joinSep '‒' (g :: r1 :: rs)) := by
      simp only [applyReplacer]
      rw [map_joinSep (g :: r1 :: rs) (fun x hx c hc => (hok x hx).2 c hc) '‒']
    refine scanAux_single_full_match _ _ _ [] _ [] _ hne htm hrep ?_
    have := joinSep_length_ge '-' (g :: r1 :: rs) (fun x hx => (hok x hx).1)
    simp only [List.length_cons] at this
    omega

/-- The range rule turns a join of exactly two digit groups into the groups
joined by an en dash, in one match. -/
theorem applyRule_range_pair (g1 g2 : Str)
    (hok : ∀ x ∈ [g1, g2], x ≠ [] ∧ ∀ c ∈ x, isDigitC c = true) :
    applyRule ⟨.rangeDash, .str "$1–$2"⟩ (joinSep '-' [g1, g2]) =
      .ok (joinSep '–' [g1, g2]) := by
  have hg1 := hok g1 (List.mem_cons_self _ _)
  have hg2 := hok g2 (by simp)
  have htw : (joinSep '-' [g1, g2]).takeWhile isDigitC = g1 :=
    takeWhile_joinSep g1 [g2] hg1.2
  have hg1ne : ¬ (g1.isEmpty = true) := by
    cases g1 with
    | nil => exact absurd rfl hg1.1
    | cons a l => simp
  have hg2ne : ¬ (g2.isEmpty = true) := by
    cases g2 with
    | nil => exact absurd rfl hg2.1
    | cons a l => simp
  have hdrop : (joinSep '-' [g1, g2]).drop g1.length = '-' :: g2 := by
    have := drop_joinSep g1 g2 []
    simpa using this
  have htw2 : g2.takeWhile isDigitC = g2 := List.takeWhile_eq_self_iff.mpr hg2.2
  have htm : tryMatchAt .rangeDash [] (joinSep '-' [g1, g2]) =
      some ((joinSep '-' [g1, g2]).length, [some g1, some g2]) := by
    simp only [tryMatchAt, htw]
    rw [if_neg hg1ne, hdrop]
    simp only [htw2]
    rw [if_neg hg2ne]
    have hlen : g1.length + 1 + g2.length = (joinSep '-' [g1, g2]).length := by
      have hj : joinSep '-' [g1, g2] = g1 ++ '-' :: g2 := rfl
      rw [hj]
      simp only [List.length_append, List.length_cons]
      omega
    rw [hlen]
  have hne : joinSep '-' [g1, g2] ≠ [] := by
    have hj : joinSep '-' [g1, g2] = g1 ++ '-' :: g2 := rfl
    rw [hj]
    simp
  have hrep : applyReplacer (.str "$1–$2") (joinSep '-' [g1, g2]) [some g1, some g2] =
      .ok (joinSep '–' [g1, g2]) := by
    simp only [applyReplacer]
    have hexp : expandTemplate "$1–$2".data [some g1, some g2] = g1 ++ '–' :: g2 := by
      simp [expandTemplate]
    rw [hexp]
    rfl
  refine scanAux_single_full_match _ _ _ [] _ _ _ hne htm hrep ?_
  have := joinSep_length_ge '-' [g1, g2] (fun x hx => (hok x hx).1)
  simp only [List.length_cons] at this
  omega

/-- The space trigger of the spaced-dash rule: every match starts with a
space. -/
theorem trigger_spacedDash_space (rev rest : Str) (len : Nat) (gs : List (Option Str))
    (h : tryMatchAt .spacedDash rev rest = some (len, gs)) : ' ' ∈ rest.take len := by
  simp only [tryMatchAt] at h
  split at h
  next =>
    injection h with h0
    injection h0 with h1 h2
    subst h1
    simp [List.take]
  next => exact absurd h (by simp)

/-- A character that is neither the separator nor a digit does not occur in
a digit-group join. -/
theorem notMem_joinSep_of (sep : Char) (gs : List Str)
    (hok : ∀ g ∈ gs, ∀ c ∈ g, isDigitC c = true)
    (trig : Char) (h1 : trig ≠ sep) (h2 : isDigitC trig = false) :
    trig ∉ joinSep sep gs := by
  intro hmem
  rcases mem_joinSep_digit sep gs hok trig hmem with h | h
  · exact h1 h
  · rw [h] at h2
    exact Bool.noConfusion h2

/-- A join of two digit groups contains exactly one hyphen. -/
theorem count_joinSep_pair (g1 g2 : Str)
    (hok : ∀ x ∈ [g1, g2], ∀ c ∈ x, isDigitC c = true) :
    (joinSep '-' [g1, g2]).count '-' = 1 := by
  have hj : joinSep '-' [g1, g2] = g1 ++ '-' :: g2 := rfl
  have hz1 : g1.count '-' = 0 := by
    refine List.count_eq_zero.mpr ?_
    intro hmem
    have := hok g1 (List.mem_cons_self _ _) '-' hmem
    exact Bool.noConfusion this
  have hz2 : g2.count '-' = 0 := by
    refine List.count_eq_zero.mpr ?_
    intro hmem
    have := hok g2 (by simp) '-' hmem
    exact Bool.noConfusion this
  rw [hj, List.count_append, List.count_cons_self, hz1, hz2]

/-- C7 (amended): every input consisting of three or more nonempty digit
groups joined by hyphens, on which the ISO-date rule does not fire, has all
hyphens replaced by figure dashes by the base rules; exactly two digit
groups joined by a hyphen, on which the ISO-date rule does not fire, become
digits separated by an en dash.  The two versus three-or-more threshold is
exact, but it applies only after the earlier date rule has declined the
match. -/
theorem C7_threshold (gs : List Str)
    (hok : ∀ g ∈ gs, g ≠ [] ∧ ∀ c ∈ g, isDigitC c = true)
    (hdate : applyRule ⟨.isoDate, .dateFn⟩ (joinSep '-' gs) = .ok (joinSep '-' gs)) :
    (3 ≤ gs.length →
      transform (String.mk (joinSep '-' gs)) punctuationRules =
        .ok (String.mk (joinSep '‒' gs))) ∧
    (gs.length = 2 →
      transform (String.mk (joinSep '-' gs)) punctuationRules =
        .ok (String.mk (joinSep '–' gs))) := by
  have hdig : ∀ g ∈ gs, ∀ c ∈ g, isDigitC c = true := fun g hg => (hok g hg).2
  have hquote : '"' ∉ joinSep '-' gs := notMem_joinSep_of '-' gs hdig '"' (by decide) (by decide)
  have hapos : '\'' ∉ joinSep '-' gs := notMem_joinSep_of '-' gs hdig '\'' (by decide) (by decide)
  have hdot : '.' ∉ joinSep '-' gs := notMem_joinSep_of '-' gs hdig '.' (by decide) (by decide)
  have hspace : ' ' ∉ joinSep '-' gs := notMem_joinSep_of '-' gs hdig ' ' (by decide) (by decide)
  have e0 : applyRule ⟨.doubleQuotedText, .str "“$1”"⟩ (joinSep '-' gs) = .ok (joinSep '-' gs) :=
    applyRule_id_of_trigger _ _ _ trigger_doubleQuotedText _ hquote
  have e1 : applyRule ⟨.nIdiom, .str "’$1’"⟩ (joinSep '-' gs) = .ok (joinSep '-' gs) :=
    applyRule_id_of_trigger _ _ _ trigger_nIdiom _ hapos
  have e2 : applyRule ⟨.singleQuotedText, .str "‘$1’"⟩ (joinSep '-' gs) = .ok (joinSep '-' gs) :=
    applyRule_id_of_trigger _ _ _ trigger_singleQuotedText _ hapos
  have e3 : applyRule ⟨.doublePrimes, .str "$1″"⟩ (joinSep '-' gs) = .ok (joinSep '-' gs) :=
    applyRule_id_of_trigger _ _ _ trigger_doublePrimes _ hquote
  have e4 : applyRule ⟨.singlePrimes, .str "$1′$2"⟩ (joinSep '-' gs) = .ok (joinSep '-' gs) :=
    applyRule_id_of_trigger _ _ _ trigger_singlePrimes _ hapos
  have e5 : applyRule ⟨.apostrophe, .str "’"⟩ (joinSep '-' gs) = .ok (joinSep '-' gs) :=
    applyRule_id_of_trigger _ _ _ trigger_apostrophe _ hapos
  have e6 : applyRule ⟨.ellipsis, .str "…"⟩ (joinSep '-' gs) = .ok (joinSep '-' gs) :=
    applyRule_id_of_trigger _ _ _ trigger_ellipsisDot _ hdot
  have e7 : applyRule ⟨.spacedDash, .str " – "⟩ (joinSep '-' gs) = .ok (joinSep '-' gs) :=
    applyRule_id_of_trigger _ _ _ trigger_spacedDash_space _ hspace
  constructor
  · intro h3
    match gs, h3, hok, hdate with
    | g :: gtail, h3b, hokb, hdateb =>
      have htail2 : 2 ≤ gtail.length := by
        simp only [List.length_cons] at h3b
        omega
      have e9 : applyRule ⟨.groupedDigits, .groupFn⟩ (joinSep '-' (g :: gtail)) =
          .ok (joinSep '‒' (g :: gtail)) :=
        applyRule_grouped_joinSep g gtail hokb htail2
      have hdig2 : ∀ x ∈ g :: gtail, ∀ c ∈ x, isDigitC c = true := fun x hx => (hokb x hx).2
      have hnofd : '-' ∉ joinSep '‒' (g :: gtail) :=
        notMem_joinSep_of '‒' (g :: gtail) hdig2 '-' (by decide) (by decide)
      have e10 : applyRule ⟨.rangeDash, .str "$1–$2"⟩ (joinSep '‒' (g :: gtail)) =
          .ok (joinSep '‒' (g :: gtail)) :=
        applyRule_id_of_trigger _ _ _ trigger_rangeDash _ hnofd
      have e11 : applyRule ⟨.residualHyphen, .str "‐"⟩ (joinSep '‒' (g :: gtail)) =
          .ok (joinSep '‒' (g :: gtail)) :=
        applyRule_id_of_trigger _ _ _ trigger_residualHyphen _ hnofd
      simp only [punctuationRules, transform, e0, e1, e2, e3, e4, e5, e6, e7, hdateb,
        e9, e10, e11]
  · intro h2
    match gs, h2, hok, hdate with
    | [g1, g2], _, hokb, hdateb =>
      have hdigp : ∀ x ∈ [g1, g2], ∀ c ∈ x, isDigitC c = true := fun x hx => (hokb x hx).2
      have e9 : applyRule ⟨.groupedDigits, .groupFn⟩ (joinSep '-' [g1, g2]) =
          .ok (joinSep '-' [g1, g2]) := by
        refine scanAux_groupedDigits_id _ _ [] _ ?_
        rw [count_joinSep_pair g1 g2 hdigp]
        omega
      have e10 : applyRule ⟨.rangeDash, .str "$1–$2"⟩ (joinSep '-' [g1, g2]) =
          .ok (joinSep '–' [g1, g2]) :=
        applyRule_range_pair g1 g2 hokb
      have hnoed : '-' ∉ joinSep '–' [g1, g2] :=
        notMem_joinSep_of '–' [g1, g2] hdigp '-' (by decide) (by decide)
      have e11 : applyRule ⟨.residualHyphen, .str "‐"⟩ (joinSep '–' [g1, g2]) =
          .ok (joinSep '–' [g1, g2]) :=
        applyRule_id_of_trigger _ _ _ trigger_residualHyphen _ hnoed
      simp only [punctuationRules, transform, e0, e1, e2, e3, e4, e5, e6, e7, hdateb,
        e9, e10, e11]

/-- Witness for C7 at the concrete catalogue number `12-345-6789` and the
concrete range `12-345`. -/
theorem C7_threshold_witness :
    transform "12-345-6789" punctuationRules = .ok "12‒345‒6789" ∧
    transform "12-345" punctuationRules = .ok "12–345" := by
  constructor
  · exact (C7_threshold [['1','2'], ['3','4','5'], ['6','7','8','9']]
      (by decide) (by rfl)).1 (by decide)
  · exact (C7_threshold [['1','2'], ['3','4','5']]
      (by decide) (by rfl)).2 (by decide)

/-- C7 counterexample: as stated, the claim is false — `2016-04` consists
of exactly two digit groups joined by a hyphen, but the base rules do not
turn it into `2016–04` (en dash): the earlier ISO-date rule fires first and
produces `2016‐04` (date hyphens, U+2010). -/
theorem C7_counterexample :
    transform "2016-04" punctuationRules = .ok "2016‐04" ∧
    ("2016‐04" : String) ≠ "2016–04" := by
  exact ⟨by rfl, by decide⟩

/-- C6: Applying the base rules to `1987-07-30` (a parseable calendar date
matched by the date rule) replaces every hyphen in the match with the
dedicated date hyphen variant `U+2010`, while `1989-90` (not a parseable
date) is left unchanged by the date rule and is then converted by the
range rule to `1989–90` with an en dash. -/
theorem C6_date_vs_range :
    transform "1987-07-30" punctuationRules = .ok "1987‐07‐30" ∧
    transform "1989-90" punctuationRules = .ok "1989–90" := by
  exact ⟨by rfl, by rfl⟩

/-- C5: For the labeled link `[http://example.com/a-b|label]`, the
markup-preserving rule sequence (protect, punctuation rules, restore, with
nothing for the punctuation rules to change) returns the original text
exactly; and only the link target is protected — a label containing a
hyphen still receives punctuation guessing while the hyphen in the target
URL is untouched. -/
theorem C5_markup_roundtrip :
    transform "[http://example.com/a-b|label]" transformationRulesToPreserveMarkup =
      .ok "[http://example.com/a-b|label]" ∧
    transform "[http://example.com/a-b|my-label]" transformationRulesToPreserveMarkup =
      .ok "[http://example.com/a-b|my‐label]" := by
  exact ⟨by rfl, by rfl⟩

/-! ### Base64 round trip (protected-span encoding) -/

theorem encB64_spec : ∀ v : Nat, v < 64 →
    isB64Digit (encB64 v) = true ∧ isAsciiWs (encB64 v) = false ∧ decB64 (encB64 v) = v := by
  decide

def coreEnc : List Nat → Str
  | [] => []
  | [b1] => [encB64 (b1 / 4), encB64 (b1 % 4 * 16)]
  | [b1, b2] =>
    [encB64 (b1 / 4), encB64 (b1 % 4 * 16 + b2 / 16), encB64 (b2 % 16 * 4)]
  | b1 :: b2 :: b3 :: rest =>
    encB64 (b1 / 4) :: encB64 (b1 % 4 * 16 + b2 / 16) ::
    encB64 (b2 % 16 * 4 + b3 / 64) :: encB64 (b3 % 64) :: coreEnc rest

theorem enc_eq_core_pad : ∀ bs : List Nat,
    b64encodeBytes bs = coreEnc bs ++
      (if bs.length % 3 = 1 then ['=', '='] else if bs.length % 3 = 2 then ['='] else []) := by
  intro bs
  induction bs using coreEnc.induct with
  | case1 => rfl
  | case2 b1 => rfl
  | case3 b1 b2 => rfl
  | case4 b1 b2 b3 rest ih =>
    show b64encodeBytes (b1 :: b2 :: b3 :: rest) = _
    simp only [b64encodeBytes, coreEnc, ih]
    have hmod : ((b1 :: b2 :: b3 :: rest : List Nat).length) % 3 = rest.length % 3 := by
      simp only [List.length_cons]
      omega
    rw [hmod]
    simp

theorem coreEnc_alphabet (bs : List Nat) (hb : ∀ b ∈ bs, b < 256) :
    ∀ c ∈ coreEnc bs, isB64Digit c = true := by
  induction bs using coreEnc.induct with
  | case1 => intro c hc; exact absurd hc (List.not_mem_nil c)
  | case2 b1 =>
    intro c hc
    have h1 : b1 < 256 := hb b1 (List.mem_cons_self _ _)
    rcases List.mem_cons.mp hc with rfl | hc2
    · exact (encB64_spec _ (by omega)).1
    · rcases List.mem_cons.mp hc2 with rfl | hc3
      · exact (encB64_spec _ (by omega)).1
      · exact absurd hc3 (List.not_mem_nil c)
  | case3 b1 b2 =>
    intro c hc
    have h1 : b1 < 256 := hb b1 (List.mem_cons_self _ _)
    have h2 : b2 < 256 := hb b2 (by simp)
    rcases List.mem_cons.mp hc with rfl | hc2
    · exact (encB64_spec _ (by omega)).1
    · rcases List.mem_cons.mp hc2 with rfl | hc3
      · exact (encB64_spec _ (by omega)).1
      · rcases List.mem_cons.mp hc3 with rfl | hc4
        · exact (encB64_spec _ (by omega)).1
        · exact absurd hc4 (List.not_mem_nil c)
  | case4 b1 b2 b3 rest ih =>
    intro c hc
    have h1 : b1 < 256 := hb b1 (List.mem_cons_self _ _)
    have h2 : b2 < 256 := hb b2 (by simp)
    have h3 : b3 < 256 := hb b3 (by simp)
    rcases List.mem_cons.mp hc with rfl | hc2
    · exact (encB64_spec _ (by omega)).1
    · rcases List.mem_cons.mp hc2 with rfl | hc3
      · exact (encB64_spec _ (by omega)).1
      · rcases List.mem_cons.mp hc3 with rfl | hc4
        · exact (encB64_spec _ (by omega)).1
        · rcases List.mem_cons.mp hc4 with rfl | hc5
          · exact (encB64_spec _ (by omega)).1
          · exact ih (fun b hbm => hb b (by simp [hbm])) c hc5

theorem coreEnc_len_mod (bs : List Nat) : (coreEnc bs).length % 4 ≠ 1 := by
  induction bs using coreEnc.induct with
  | case1 => simp [coreEnc]
  | case2 b1 => simp [coreEnc]
  | case3 b1 b2 => simp [coreEnc]
  | case4 b1 b2 b3 rest ih =>
    show ((coreEnc (b1 :: b2 :: b3 :: rest)).length) % 4 ≠ 1
    have : (coreEnc (b1 :: b2 :: b3 :: rest)).length = (coreEnc rest).length + 4 := by
      simp [coreEnc]
      try omega
    rw [this]
    omega

theorem decode_core (bs : List Nat) (hb : ∀ b ∈ bs, b < 256) :
    b64decodeVals ((coreEnc bs).map decB64) = bs := by
  induction bs using coreEnc.induct with
  | case1 => rfl
  | case2 b1 =>
    have h1 : b1 < 256 := hb b1 (List.mem_cons_self _ _)
    show b64decodeVals [decB64 (encB64 (b1 / 4)), decB64 (encB64 (b1 % 4 * 16))] = [b1]
    rw [(encB64_spec _ (by omega)).2.2, (encB64_spec _ (by omega)).2.2]
    show [b1 / 4 * 4 + b1 % 4 * 16 / 16] = [b1]
    congr 1
    omega
  | case3 b1 b2 =>
    have h1 : b1 < 256 := hb b1 (List.mem_cons_self _ _)
    have h2 : b2 < 256 := hb b2 (by simp)
    show b64decodeVals [decB64 (encB64 (b1 / 4)), decB64 (encB64 (b1 % 4 * 16 + b2 / 16)),
      decB64 (encB64 (b2 % 16 * 4))] = [b1, b2]
    rw [(encB64_spec _ (by omega)).2.2, (encB64_spec _ (by omega)).2.2,
      (encB64_spec _ (by omega)).2.2]
    show [b1 / 4 * 4 + (b1 % 4 * 16 + b2 / 16) / 16,
      (b1 % 4 * 16 + b2 / 16) % 16 * 16 + b2 % 16 * 4 / 4] = [b1, b2]
    congr 1
    · omega
    · congr 1
      omega
  | case4 b1 b2 b3 rest ih =>
    have h1 : b1 < 256 := hb b1 (List.mem_cons_self _ _)
    have h2 : b2 < 256 := hb b2 (by simp)
    have h3 : b3 < 256 := hb b3 (by simp)
    have ih2 := ih (fun b hbm => hb b (by simp [hbm]))
    show b64decodeVals (decB64 (encB64 (b1 / 4)) :: decB64 (encB64 (b1 % 4 * 16 + b2 / 16)) ::
      decB64 (encB64 (b2 % 16 * 4 + b3 / 64)) :: decB64 (encB64 (b3 % 64)) ::
      (coreEnc rest).map decB64) = b1 :: b2 :: b3 :: rest
    rw [(encB64_spec _ (by omega)).2.2, (encB64_spec _ (by omega)).2.2,
      (encB64_spec _ (by omega)).2.2, (encB64_spec _ (by omega)).2.2]
    show (b1 / 4 * 4 + (b1 % 4 * 16 + b2 / 16) / 16) ::
      ((b1 % 4 * 16 + b2 / 16) % 16 * 16 + (b2 % 16 * 4 + b3 / 64) / 4) ::
      ((b2 % 16 * 4 + b3 / 64) % 4 * 64 + b3 % 64) ::
      b64decodeVals ((coreEnc rest).map decB64) = b1 :: b2 :: b3 :: rest
    rw [ih2]
    congr 1
    · omega
    congr 1
    · omega
    congr 1
    omega

theorem eq_digit_ne_pad (c : Char) (h : isB64Digit c = true) : c ≠ '=' := by
  intro hc
  subst hc
  exact Bool.noConfusion h

theorem alpha_no_ws (c : Char) (h : isB64Digit c = true) : isAsciiWs c = false := by
  have hmem : c ∈ b64chars := by simpa [isB64Digit] using h
  exact (by decide : ∀ x ∈ b64chars, isAsciiWs x = false) c hmem

theorem dropTrailingEq_pad2 (l : Str) : dropTrailingEq (l ++ ['=', '=']) = l := by
  unfold dropTrailingEq
  rw [List.reverse_append]
  simp

theorem dropTrailingEq_pad1 (l : Str) (h : ∀ c ∈ l, c ≠ '=') :
    dropTrailingEq (l ++ ['=']) = l := by
  unfold dropTrailingEq
  rw [List.reverse_append]
  match hl : l.reverse with
  | [] =>
    have : l = [] := by simpa using congrArg List.reverse hl
    subst this
    rfl
  | c2 :: r2 =>
    have hmem : c2 ∈ l := by
      have : c2 ∈ l.reverse := by rw [hl]; exact List.mem_cons_self _ _
      simpa using this
    have hc2 : c2 ≠ '=' := h c2 hmem
    have hlr : (c2 :: r2).reverse = l := by
      have := congrArg List.reverse hl
      simpa using this.symm
    have hscrut : ((['='] : Str).reverse ++ c2 :: r2) = '=' :: c2 :: r2 := rfl
    rw [hscrut]
    rw [if_neg (by simp [hc2]), if_pos (by simp)]
    simpa using hlr

theorem dropTrailingEq_nopad (l : Str) (h : ∀ c ∈ l, c ≠ '=') :
    dropTrailingEq l = l := by
  unfold dropTrailingEq
  match hl : l.reverse with
  | [] => rfl
  | c2 :: r2 =>
    have hmem : c2 ∈ l := by
      have : c2 ∈ l.reverse := by rw [hl]; exact List.mem_cons_self _ _
      simpa using this
    have hc2 : c2 ≠ '=' := h c2 hmem
    rw [if_neg (by simp [hc2]), if_neg (by simp [hc2])]

theorem encLen_mod (bs : List Nat) : (b64encodeBytes bs).length % 4 = 0 := by
  induction bs using coreEnc.induct with
  | case1 => rfl
  | case2 b1 => simp [b64encodeBytes]
  | case3 b1 b2 => simp [b64encodeBytes]
  | case4 b1 b2 b3 rest ih =>
    have : (b64encodeBytes (b1 :: b2 :: b3 :: rest)).length =
        (b64encodeBytes rest).length + 4 := by
      simp [b64encodeBytes]
      try omega
    rw [this]
    omega

theorem strip_enc (bs : List Nat) (hb : ∀ b ∈ bs, b < 256) :
    dropTrailingEq (b64encodeBytes bs) = coreEnc bs := by
  have hne : ∀ c ∈ coreEnc bs, c ≠ '=' :=
    fun c hc => eq_digit_ne_pad c (coreEnc_alphabet bs hb c hc)
  rw [enc_eq_core_pad bs]
  by_cases h1 : bs.length % 3 = 1
  · rw [if_pos h1]
    exact dropTrailingEq_pad2 _
  · rw [if_neg h1]
    by_cases h2 : bs.length % 3 = 2
    · rw [if_pos h2]
      exact dropTrailingEq_pad1 _ hne
    · rw [if_neg h2, List.append_nil]
      exact dropTrailingEq_nopad _ hne

theorem atob_btoa (s : Str) (hs : ∀ c ∈ s, c.toNat ≤ 255) :
    ∃ e, btoa s = .ok e ∧ atob e = .ok s := by
  have hall : s.all (fun c => c.toNat ≤ 255) = true := by
    rw [List.all_eq_true]
    intro c hc
    simpa using hs c hc
  have hbytes : ∀ b ∈ s.map Char.toNat, b < 256 := by
    intro b hb
    rcases List.mem_map.mp hb with ⟨c, hc, rfl⟩
    have := hs c hc
    omega
  refine ⟨b64encodeBytes (s.map Char.toNat), ?_, ?_⟩
  · simp only [btoa, if_pos hall]
  · have hnows : (b64encodeBytes (s.map Char.toNat)).filter (fun c => !isAsciiWs c) =
        b64encodeBytes (s.map Char.toNat) := by
      refine List.filter_eq_self.mpr ?_
      intro c hc
      rw [enc_eq_core_pad] at hc
      rcases List.mem_append.mp hc with hin | hin
      · simp [alpha_no_ws c (coreEnc_alphabet _ hbytes c hin)]
      · have : c = '=' := by
          rcases Nat.lt_or_ge ((s.map Char.toNat).length % 3) 1 with h | h
          · rw [if_neg (by omega), if_neg (by omega)] at hin
            exact absurd hin (List.not_mem_nil c)
          · rcases Nat.lt_or_ge ((s.map Char.toNat).length % 3) 2 with h2 | h2
            · rw [if_pos (by omega)] at hin
              rcases List.mem_cons.mp hin with rfl | hin2
              · rfl
              · simpa using hin2
            · have : (s.map Char.toNat).length % 3 = 2 := by omega
              rw [if_neg (by omega), if_pos this] at hin
              simpa using hin
        subst this
        decide
    have hlen : (b64encodeBytes (s.map Char.toNat)).length % 4 = 0 := encLen_mod _
    simp only [atob, hnows, if_pos hlen]
    rw [strip_enc _ hbytes]
    rw [if_neg (coreEnc_len_mod _)]
    rw [if_pos (by
      rw [List.all_eq_true]
      intro c hc
      exact coreEnc_alphabet _ hbytes c hc)]
    rw [decode_core _ hbytes]
    congr 1
    rw [List.map_map]
    refine List.map_congr_left ?_ |>.trans (List.map_id s)
    intro c hc
    exact Char.ofNat_toNat c


/-- C4 counterexample: the claim fails in two independent ways.  The
guarded transformation can throw — `btoa` is only defined for characters
up to `U+00FF`, so a protected span containing `€` (U+20AC) raises an
error instead of being left as literal text.  And unrelated text can be
corrupted — an input containing the literal placeholder token `<b>`, with
no markup at all, is rewritten to three apostrophes by the restore rule. -/
theorem C4_counterexample :
    transform "[€]" transformationRulesToPreserveMarkup = .error () ∧
    transform "a <b> c" transformationRulesToPreserveMarkup =
      .ok (String.mk ['a', ' ', '\'', '\'', '\'', ' ', 'c']) ∧
    (String.mk ['a', ' ', '\'', '\'', '\'', ' ', 'c'] : String) ≠ "a <b> c" := by
  exact ⟨by rfl, by rfl, by decide⟩

/-- C4 amended: the markup guard is best-effort — unbalanced or malformed
bracket sequences are left as literal text, and the encode/decode of
protected spans (`btoa`/`atob`) is exactly invertible for Latin-1 content
(all code points ≤ U+00FF) — but the guarded transformation can throw when
a protected span contains a character above U+00FF, because `btoa` is
undefined there, and input text containing a literal placeholder token
`<b>` or `<i>` is corrupted (rewritten to bold/italic apostrophe markers)
by the restore phase. -/
theorem C4_markup_guard :
    (∀ s : Str, (∀ c ∈ s, c.toNat ≤ 255) → ∃ e, btoa s = .ok e ∧ atob e = .ok s) ∧
    btoa "€".data = .error () ∧
    transform "[abc" transformationRulesToPreserveMarkup = .ok "[abc" ∧
    transform "a] b [c" transformationRulesToPreserveMarkup = .ok "a] b [c" ∧
    transform "a <b> c" transformationRulesToPreserveMarkup =
      .ok (String.mk ['a', ' ', '\'', '\'', '\'', ' ', 'c']) ∧
    transform "x <i>y" transformationRulesToPreserveMarkup =
      .ok (String.mk ['x', ' ', '\'', '\'', 'y']) :=
  ⟨fun s h => atob_btoa s h, by rfl, by rfl, by rfl, by rfl, by rfl⟩

/-- Witness for C4 at the concrete Latin-1 content `ab`. -/
theorem C4_markup_guard_witness :
    ∃ e, btoa ("ab" : String).data = .ok e ∧ atob e = .ok ("ab" : String).data :=
  C4_markup_guard.1 ("ab" : String).data (by decide)

end GuessPunct
